import Mathlib

set_option maxHeartbeats 1000000

/-!
Verification development for the typed heterogeneous graph store and its
message-passing engine (DGL core: `python/dgl/heterograph.py`,
`python/dgl/backend/pytorch/tensor.py`).

Node/edge features are modelled as integer (or rational, where division is
needed) columns; frames are association lists from field names to columns.
Where the executable runtime (`dgl/runtime` scheduler, `dgl/frame.py`, the
native graph index) is not part of the sources, the corresponding operation is
modelled from the specification; each such definition carries a doc comment
saying so.
-/

namespace DrugDGL

/-- A single relation (unit graph): number of nodes of the incident type(s) and
the edge list `(src, dst)`; the edge id is the position in the list.  Mirrors
the per-relation adjacency exposed by `DGLHeteroGraph._graph`. -/
structure MPGraph where
  numNodes : Nat
  edges : List (Nat × Nat)
deriving DecidableEq

/-- Source endpoint of edge `i`. -/
def MPGraph.src (g : MPGraph) (i : Nat) : Nat := (g.edges.getD i (0, 0)).1

/-- Destination endpoint of edge `i`. -/
def MPGraph.dst (g : MPGraph) (i : Nat) : Nat := (g.edges.getD i (0, 0)).2

/-- Relation-level state: one node-feature column `h` (a row per destination
node), one edge-feature column `eh`, and the per-edge message buffer `msg`
(`some` = undelivered message; this combines `_msg_frames` and `_msg_indices`
of `DGLHeteroGraph`). -/
structure MPState where
  h : List Int
  msg : List (Option Int)
  eh : List Int
deriving DecidableEq

/-- Optionally apply the `apply_node_func` to a reduced value. -/
def applyOpt (a : Option (Int → Int)) (x : Int) : Int :=
  match a with
  | some f => f x
  | none => x

/-- Modelled from the spec: the value `recv` writes for a selected node with an
empty mailbox (the executable scheduler `dgl/runtime/scheduler.py` is not in
the sources).  With an apply function, it is applied directly to the current
feature value; otherwise the registered column initializer (if any) synthesizes
the row; otherwise the row is left unchanged. -/
def zeroMsgFallback (a : Option (Int → Int)) (ini : Option Int) (old : Int) : Int :=
  match a with
  | some f => f old
  | none =>
    match ini with
    | some c => c
    | none => old

/-- The mailbox of destination node `v`: all pending messages on its in-edges,
in edge-id order. -/
def mailboxOf (g : MPGraph) (msg : List (Option Int)) (v : Nat) : List Int :=
  (List.range g.edges.length).filterMap
    (fun i => if g.dst i = v then msg.getD i none else none)

/-- All in-edges (edge ids) of the node set `vs`. -/
def in_edges (g : MPGraph) (vs : List Nat) : List Nat :=
  (List.range g.edges.length).filter (fun i => g.dst i ∈ vs)

/-- All out-edges (edge ids) of the node set `us`. -/
def out_edges (g : MPGraph) (us : List Nat) : List Nat :=
  (List.range g.edges.length).filter (fun i => g.src i ∈ us)

/-- `DGLHeteroGraph.send`: empty edge selection returns immediately
(`if len(eid) == 0: return`); otherwise each selected edge's message is
computed from the current source feature and written to the message buffer,
marking the edge pending.  The buffer write is modelled from the spec
(the scheduler is not in the sources). -/
def send (g : MPGraph) (es : List Nat) (m : Int → Int) (s : MPState) : MPState :=
  if es.length = 0 then s
  else
    { s with msg := ((List.range g.edges.length).map
        (fun i => if i ∈ es then some (m (s.h.getD (g.src i) 0)) else s.msg.getD i none)) }

/-- `DGLHeteroGraph.recv`: empty node selection returns immediately
(`if len(v) == 0: return`).  Otherwise, modelled from the spec: every selected
node with a non-empty mailbox gets `apply(reduce(mailbox))`; a selected node
with an empty mailbox is skipped by reduce and handled by `zeroMsgFallback`;
consumed messages are cleared. -/
def recv (g : MPGraph) (vs : List Nat) (r : List Int → Int) (a : Option (Int → Int))
    (ini : Option Int) (s : MPState) : MPState :=
  if vs.length = 0 then s
  else
    { s with
      h := (List.range g.numNodes).map (fun v =>
        if v ∈ vs then
          let mb := mailboxOf g s.msg v
          if mb.isEmpty then zeroMsgFallback a ini (s.h.getD v 0)
          else applyOpt a (r mb)
        else s.h.getD v 0),
      msg := (List.range g.edges.length).map
        (fun i => if g.dst i ∈ vs then none else s.msg.getD i none) }

/-- The fresh mailbox `pull` computes for node `v`: one message per in-edge,
from the current source features. -/
def pullMailbox (g : MPGraph) (m : Int → Int) (h : List Int) (v : Nat) : List Int :=
  (List.range g.edges.length).filterMap
    (fun i => if g.dst i = v then some (m (h.getD (g.src i) 0)) else none)

/-- `DGLHeteroGraph.pull`: empty node selection returns immediately
(`if len(v) == 0: return`).  Otherwise, modelled from the spec and the in-source
docstring: fused send-and-receive over the in-edges of the selected nodes, with
the same zero-in-degree fallback as `recv`; the persistent message buffer is
not touched. -/
def pull (g : MPGraph) (vs : List Nat) (m : Int → Int) (r : List Int → Int)
    (a : Option (Int → Int)) (ini : Option Int) (s : MPState) : MPState :=
  if vs.length = 0 then s
  else
    { s with
      h := (List.range g.numNodes).map (fun v =>
        if v ∈ vs then
          let mb := pullMailbox g m s.h v
          if mb.isEmpty then zeroMsgFallback a ini (s.h.getD v 0)
          else applyOpt a (r mb)
        else s.h.getD v 0) }

/-- `DGLHeteroGraph.send_and_recv`: empty edge selection returns immediately
(`if len(u) == 0: return`).  Otherwise, modelled from the spec: fused
send-and-receive over the selected edges, reducing at the destinations of those
edges; the persistent message buffer is not touched. -/
def send_and_recv (g : MPGraph) (es : List Nat) (m : Int → Int) (r : List Int → Int)
    (a : Option (Int → Int)) (s : MPState) : MPState :=
  if es.length = 0 then s
  else
    { s with
      h := (List.range g.numNodes).map (fun v =>
        if v ∈ es.map g.dst then
          applyOpt a (r ((List.range g.edges.length).filterMap
            (fun i => if i ∈ es ∧ g.dst i = v then some (m (s.h.getD (g.src i) 0)) else none)))
        else s.h.getD v 0) }

/-- `DGLHeteroGraph.push`: empty node selection returns immediately
(`if len(u) == 0: return`); otherwise send-and-receive over the out-edges of
the selected nodes. -/
def push (g : MPGraph) (us : List Nat) (m : Int → Int) (r : List Int → Int)
    (a : Option (Int → Int)) (s : MPState) : MPState :=
  if us.length = 0 then s
  else send_and_recv g (out_edges g us) m r a s

/-- `DGLHeteroGraph.update_all`: send-and-receive over every edge of the
relation.  Modelled from the spec for the zero-edge case: the scheduler
short-circuits as a no-op without invoking user functions. -/
def update_all (g : MPGraph) (m : Int → Int) (r : List Int → Int)
    (a : Option (Int → Int)) (s : MPState) : MPState :=
  send_and_recv g (List.range g.edges.length) m r a s

/-- `DGLHeteroGraph.apply_nodes`: a `None` function does nothing; an empty node
selection is, modelled from the spec, a scheduler-level no-op; otherwise the
function is applied to the selected rows. -/
def apply_nodes (g : MPGraph) (f : Option (Int → Int)) (vs : List Nat) (s : MPState) : MPState :=
  if vs.length = 0 then s
  else
    match f with
    | none => s
    | some fn =>
      { s with h := ((List.range g.numNodes).map
          (fun v => if v ∈ vs then fn (s.h.getD v 0) else s.h.getD v 0)) }

/-- `DGLHeteroGraph.apply_edges`: a `None` function does nothing; an empty edge
selection is, modelled from the spec, a scheduler-level no-op; otherwise the
function is applied to the selected edge rows. -/
def apply_edges (g : MPGraph) (f : Option (Int → Int)) (es : List Nat) (s : MPState) : MPState :=
  if es.length = 0 then s
  else
    match f with
    | none => s
    | some fn =>
      { s with eh := ((List.range g.edges.length).map
          (fun i => if i ∈ es then fn (s.eh.getD i 0) else s.eh.getD i 0)) }


/-- Indexing a tabulated column: entry `i` of `(List.range n).map f`. -/
theorem getD_range_map {α : Type} (f : Nat → α) (d : α) (n i : Nat) (h : i < n) :
    ((List.range n).map f).getD i d = f i := by
  rw [List.getD_eq_getElem?_getD, List.getElem?_map, List.getElem?_range h]
  rfl

/-- Indexing below the length agrees with `getD`. -/
theorem getD_eq_getElem {α : Type} (l : List α) (d : α) (i : Nat) (h : i < l.length) :
    l.getD i d = l[i] := by
  rw [List.getD_eq_getElem?_getD, List.getElem?_eq_getElem h]
  rfl

/-- Pointwise-equal functions give equal `filterMap`s. -/
theorem filterMap_congr_mem {α β : Type} {l : List α} {f g : α → Option β}
    (h : ∀ a ∈ l, f a = g a) : l.filterMap f = l.filterMap g := by
  induction l with
  | nil => rfl
  | cons a l ih =>
    simp only [List.filterMap_cons, h a (List.mem_cons_self a l)]
    cases g a <;> simp [ih (fun b hb => h b (List.mem_cons_of_mem a hb))]

/-- `send` never touches the node-feature column. -/
theorem send_h (g : MPGraph) (es : List Nat) (m : Int → Int) (s : MPState) :
    (send g es m s).h = s.h := by
  unfold send; split <;> rfl

/-- `send` never touches the edge-feature column. -/
theorem send_eh (g : MPGraph) (es : List Nat) (m : Int → Int) (s : MPState) :
    (send g es m s).eh = s.eh := by
  unfold send; split <;> rfl

/-- `recv` never touches the edge-feature column. -/
theorem recv_eh (g : MPGraph) (vs : List Nat) (r : List Int → Int) (a : Option (Int → Int))
    (ini : Option Int) (s : MPState) : (recv g vs r a ini s).eh = s.eh := by
  unfold recv; split <;> rfl

/-- `pull` never touches the edge-feature column. -/
theorem pull_eh (g : MPGraph) (vs : List Nat) (m : Int → Int) (r : List Int → Int)
    (a : Option (Int → Int)) (ini : Option Int) (s : MPState) :
    (pull g vs m r a ini s).eh = s.eh := by
  unfold pull; split <;> rfl

/-- `pull` never touches the message buffer. -/
theorem pull_msg (g : MPGraph) (vs : List Nat) (m : Int → Int) (r : List Int → Int)
    (a : Option (Int → Int)) (ini : Option Int) (s : MPState) :
    (pull g vs m r a ini s).msg = s.msg := by
  unfold pull; split <;> rfl

/-- An empty node set has no in-edges. -/
theorem in_edges_nil (g : MPGraph) : in_edges g [] = [] := by
  simp [in_edges]

/-- Field-wise equality of relation states. -/
theorem MPState.eq_of_fields {x y : MPState} (h1 : x.h = y.h) (h2 : x.msg = y.msg)
    (h3 : x.eh = y.eh) : x = y := by
  cases x; cases y; simp_all


/-- After `send` over the in-edges of `vs`, the mailbox of any `v ∈ vs` holds
exactly the messages `pull` would compute for `v`. -/
theorem mailbox_after_send (g : MPGraph) (vs : List Nat) (m : Int → Int) (s : MPState)
    (v : Nat) (hv : v ∈ vs) :
    mailboxOf g (send g (in_edges g vs) m s).msg v = pullMailbox g m s.h v := by
  by_cases he : (in_edges g vs).length = 0
  · have hnil : in_edges g vs = [] := List.length_eq_zero.mp he
    unfold send
    rw [if_pos he]
    unfold mailboxOf pullMailbox
    have hnd : ∀ i ∈ List.range g.edges.length, g.dst i ≠ v := by
      intro i hi hdi
      have : i ∈ in_edges g vs := List.mem_filter.mpr ⟨hi, by simp [hdi, hv]⟩
      rw [hnil] at this
      exact absurd this (List.not_mem_nil i)
    rw [List.filterMap_eq_nil_iff.mpr (fun i hi => by simp [hnd i hi]),
      List.filterMap_eq_nil_iff.mpr (fun i hi => by simp [hnd i hi])]
  · unfold send
    rw [if_neg he]
    unfold mailboxOf pullMailbox
    apply filterMap_congr_mem
    intro i hi
    have hilt : i < g.edges.length := List.mem_range.mp hi
    by_cases hd : g.dst i = v
    · have hmem : i ∈ in_edges g vs := List.mem_filter.mpr ⟨hi, by simp [hd, hv]⟩
      simp only [hd, if_pos rfl]
      rw [getD_range_map _ _ _ _ hilt]
      simp [hmem]
    · simp [hd]


/-- C9: every message-passing entry point (`send`, `recv`, `pull`, `push`,
`send_and_recv`, `update_all`, `apply_nodes`, `apply_edges`) treats an empty
selection (zero edges or zero nodes, including `update_all` on a relation with
no edges) as a no-op: the call returns with the frames, message buffer and
indicator unchanged, for every user-defined function. -/
theorem claim_C9 (g : MPGraph) (m : Int → Int) (r : List Int → Int)
    (a : Option (Int → Int)) (ini : Option Int) (f : Option (Int → Int)) (s : MPState) :
    send g [] m s = s ∧ recv g [] r a ini s = s ∧ pull g [] m r a ini s = s ∧
    send_and_recv g [] m r a s = s ∧ push g [] m r a s = s ∧
    apply_nodes g f [] s = s ∧ apply_edges g f [] s = s ∧
    (g.edges = [] → update_all g m r a s = s) := by
  refine ⟨rfl, rfl, rfl, rfl, rfl, rfl, rfl, fun he => ?_⟩
  simp [update_all, send_and_recv, he]

/-- C9 witness: `update_all` on a concrete edgeless relation is a no-op. -/
theorem claim_C9_witness :
    update_all ⟨1, []⟩ (fun x => x + 1) (fun l => l.foldl (· + ·) 0) none ⟨[5], [], []⟩
      = ⟨[5], [], []⟩ :=
  (claim_C9 ⟨1, []⟩ (fun x => x + 1) (fun l => l.foldl (· + ·) 0) none none none
    ⟨[5], [], []⟩).2.2.2.2.2.2.2 rfl


/-- C2: in `recv(V, r, a)` every selected node with at least one pending
message receives `a(r(mailbox))`; a selected node with zero pending messages
never has `r` invoked (its new value does not depend on `r`): with an apply
function the latter is applied directly to the current feature value, otherwise
the reduce-written field is synthesized by the registered initializer.  In the
graph whose only edge is `(0, 1)`, after `send` on that edge,
`recv([0, 1], r, f)` gives node `1` the value `f(r([m(h0)]))` and node `0` the
value `f(old h0)`, bypassing the reducer. -/
theorem claim_C2 :
    (∀ (g : MPGraph) (vs : List Nat) (r : List Int → Int) (a : Option (Int → Int))
        (ini : Option Int) (s : MPState) (v : Nat), v ∈ vs → v < g.numNodes →
        mailboxOf g s.msg v ≠ [] →
        (recv g vs r a ini s).h.getD v 0 = applyOpt a (r (mailboxOf g s.msg v))) ∧
    (∀ (g : MPGraph) (vs : List Nat) (r r2 : List Int → Int) (f : Int → Int)
        (ini ini2 : Option Int) (s : MPState) (v : Nat), v ∈ vs → v < g.numNodes →
        mailboxOf g s.msg v = [] →
        (recv g vs r (some f) ini s).h.getD v 0 = f (s.h.getD v 0) ∧
        (recv g vs r (some f) ini s).h.getD v 0 = (recv g vs r2 (some f) ini2 s).h.getD v 0) ∧
    (∀ (g : MPGraph) (vs : List Nat) (r : List Int → Int) (c : Int) (s : MPState) (v : Nat),
        v ∈ vs → v < g.numNodes → mailboxOf g s.msg v = [] →
        (recv g vs r none (some c) s).h.getD v 0 = c) ∧
    (∀ (m : Int → Int) (r : List Int → Int) (f : Int → Int) (ini : Option Int) (s : MPState),
        (recv ⟨2, [(0, 1)]⟩ [0, 1] r (some f) ini
            (send ⟨2, [(0, 1)]⟩ [0] m s)).h.getD 1 0 = f (r [m (s.h.getD 0 0)]) ∧
        (recv ⟨2, [(0, 1)]⟩ [0, 1] r (some f) ini
            (send ⟨2, [(0, 1)]⟩ [0] m s)).h.getD 0 0 = f (s.h.getD 0 0)) := by
  have hrecv : ∀ (g : MPGraph) (vs : List Nat) (r : List Int → Int) (a : Option (Int → Int))
      (ini : Option Int) (s : MPState) (v : Nat), v ∈ vs → v < g.numNodes →
      (recv g vs r a ini s).h.getD v 0 =
        (if (mailboxOf g s.msg v).isEmpty then zeroMsgFallback a ini (s.h.getD v 0)
         else applyOpt a (r (mailboxOf g s.msg v))) := by
    intro g vs r a ini s v hv hvn
    have hne : ¬ vs.length = 0 := by
      simp [List.length_eq_zero]
      exact List.ne_nil_of_mem hv
    unfold recv
    rw [if_neg hne]
    show ((List.range g.numNodes).map _).getD v 0 = _
    rw [getD_range_map _ _ _ _ hvn]
    simp [hv]
  refine ⟨?_, ?_, ?_, ?_⟩
  · intro g vs r a ini s v hv hvn hmb
    rw [hrecv g vs r a ini s v hv hvn]
    simp [List.isEmpty_iff, hmb]
  · intro g vs r r2 f ini ini2 s v hv hvn hmb
    rw [hrecv g vs r (some f) ini s v hv hvn, hrecv g vs r2 (some f) ini2 s v hv hvn]
    simp [hmb, zeroMsgFallback]
  · intro g vs r c s v hv hvn hmb
    rw [hrecv g vs r none (some c) s v hv hvn]
    simp [hmb, zeroMsgFallback]
  · intro m r f ini s
    constructor <;> rfl

/-- C2 witness: on the graph with single edge `(0, 1)`, a concrete node with a
pending message gets `a(r(mailbox))`, and a concrete zero-in-degree node with
no apply function gets the registered initializer value. -/
theorem claim_C2_witness :
    (recv ⟨2, [(0, 1)]⟩ [1] (fun l => l.foldl (· + ·) 0) none none
        ⟨[3, 4], [some 7], []⟩).h.getD 1 0
      = applyOpt none ((fun l => l.foldl (· + ·) 0) (mailboxOf ⟨2, [(0, 1)]⟩ [some 7] 1)) ∧
    (recv ⟨2, [(0, 1)]⟩ [0, 1] (fun l => l.foldl (· + ·) 0) none (some 9)
        ⟨[3, 4], [none], []⟩).h.getD 0 0 = 9 :=
  ⟨claim_C2.1 ⟨2, [(0, 1)]⟩ [1] (fun l => l.foldl (· + ·) 0) none none
      ⟨[3, 4], [some 7], []⟩ 1 (by decide) (by decide) (by decide),
   claim_C2.2.2.1 ⟨2, [(0, 1)]⟩ [0, 1] (fun l => l.foldl (· + ·) 0) 9
      ⟨[3, 4], [none], []⟩ 0 (by decide) (by decide) (by decide)⟩


/-- C1 counterexample: `send(in_edges(V), m); recv(V, r, a)` is not
observationally equivalent to `pull(V, m, r, a)` in general.  Starting from a
state with a pre-existing pending message on the in-edge of `V = [1]`, the
send/recv pair consumes it (clearing the buffer) while `pull` leaves it
pending, so the two final states differ in the message buffer. -/
theorem claim_C1_counterexample :
    recv ⟨2, [(0, 1)]⟩ [1] (fun l => l.foldl (· + ·) 0) none none
        (send ⟨2, [(0, 1)]⟩ (in_edges ⟨2, [(0, 1)]⟩ [1]) (fun x => x) ⟨[0, 0], [some 5], []⟩)
      ≠ pull ⟨2, [(0, 1)]⟩ [1] (fun x => x) (fun l => l.foldl (· + ·) 0) none none
        ⟨[0, 0], [some 5], []⟩ := by
  decide

/-- C1 (amended): `recv(V, r, a)` after `send(in_edges(V), m)` always leaves
the same destination-frame contents (and edge frame) as `pull(V, m, r, a)`;
the whole states (message buffer included) coincide provided no message was
pending on an in-edge of `V` beforehand — otherwise send/recv clears those
pre-existing messages while `pull` leaves them untouched. -/
theorem claim_C1_amended (g : MPGraph) (vs : List Nat) (m : Int → Int)
    (r : List Int → Int) (a : Option (Int → Int)) (ini : Option Int) (s : MPState) :
    (recv g vs r a ini (send g (in_edges g vs) m s)).h = (pull g vs m r a ini s).h ∧
    (recv g vs r a ini (send g (in_edges g vs) m s)).eh = (pull g vs m r a ini s).eh ∧
    (s.msg.length = g.edges.length →
      (∀ i, i < g.edges.length → g.dst i ∈ vs → s.msg.getD i none = none) →
      recv g vs r a ini (send g (in_edges g vs) m s) = pull g vs m r a ini s) := by
  by_cases hvs : vs.length = 0
  · have hnil : vs = [] := List.length_eq_zero.mp hvs
    subst hnil
    rw [in_edges_nil]
    refine ⟨rfl, rfl, fun _ _ => rfl⟩
  · have hh : (recv g vs r a ini (send g (in_edges g vs) m s)).h = (pull g vs m r a ini s).h := by
      unfold recv pull
      rw [if_neg hvs, if_neg hvs]
      show (List.range g.numNodes).map _ = (List.range g.numNodes).map _
      apply List.map_congr_left
      intro v _
      by_cases hv : v ∈ vs
      · simp only [hv, if_pos]
        rw [mailbox_after_send g vs m s v hv, send_h]
      · simp only [hv, if_neg, send_h]
        simp [hv, send_h g (in_edges g vs) m s]
    have heh : (recv g vs r a ini (send g (in_edges g vs) m s)).eh
        = (pull g vs m r a ini s).eh := by
      rw [recv_eh, send_eh, pull_eh]
    refine ⟨hh, heh, fun hlen hclean => ?_⟩
    apply MPState.eq_of_fields hh ?_ heh
    rw [pull_msg]
    unfold recv
    rw [if_neg hvs]
    show (List.range g.edges.length).map _ = s.msg
    apply List.ext_getElem
    · simp [hlen]
    · intro i h1 h2
      rw [List.getElem_map, List.getElem_range]
      have hilt : i < g.edges.length := by simpa using h1
      by_cases hd : g.dst i ∈ vs
      · rw [if_pos hd]
        rw [← getD_eq_getElem s.msg none i h2]
        exact (hclean i hilt hd).symm
      · rw [if_neg hd]
        rw [← getD_eq_getElem s.msg none i h2]
        by_cases he : (in_edges g vs).length = 0
        · unfold send
          rw [if_pos he]
        · unfold send
          rw [if_neg he]
          show ((List.range g.edges.length).map _).getD i none = s.msg.getD i none
          rw [getD_range_map _ _ _ _ hilt]
          have : i ∉ in_edges g vs := by
            intro hmem
            exact hd (by simpa [in_edges] using (List.mem_filter.mp hmem).2)
          simp [this]

/-- C1 witness: on a concrete relation with a clean message buffer, send/recv
over the in-edges of `V` and `pull` produce identical final states. -/
theorem claim_C1_witness :
    recv ⟨2, [(0, 1)]⟩ [1] (fun l => l.foldl (· + ·) 0) none none
        (send ⟨2, [(0, 1)]⟩ (in_edges ⟨2, [(0, 1)]⟩ [1]) (fun x => x + 1) ⟨[3, 4], [none], []⟩)
      = pull ⟨2, [(0, 1)]⟩ [1] (fun x => x + 1) (fun l => l.foldl (· + ·) 0) none none
        ⟨[3, 4], [none], []⟩ :=
  (claim_C1_amended ⟨2, [(0, 1)]⟩ [1] (fun x => x + 1) (fun l => l.foldl (· + ·) 0) none none
    ⟨[3, 4], [none], []⟩).2.2 (by decide) (by decide)


/-- Error taxonomy raised by the store (`DGLError` messages in the sources). -/
inductive DGLError where
  | unknownType
  | ambiguousType
  | typeNameRequired
  | shapeMismatch
  | schemeConflict
  | invalidReducer
  | emptySlice
deriving DecidableEq

/-- A canonical edge type `(srctype, etype, dsttype)`. -/
abbrev Triple := String × String × String

/-- The metagraph-level data of a `DGLHeteroGraph`: node type names, edge type
names, and per edge type the pair of incident node-type ids (the metagraph
edge found by `self._graph.metagraph.find_edge(etid)`). -/
structure HGMeta where
  ntypes : List String
  etypes : List String
  metaEdges : List (Nat × Nat)
deriving DecidableEq

/-- `make_canonical_etypes`: the canonical triple of every edge type. -/
def make_canonical_etypes (g : HGMeta) : List Triple :=
  (List.range g.etypes.length).map (fun i =>
    (g.ntypes.getD (g.metaEdges.getD i (0, 0)).1 "",
     g.etypes.getD i "",
     g.ntypes.getD (g.metaEdges.getD i (0, 0)).2 ""))

/-- Replace the value stored under key `k` (no-op when `k` is absent);
models a Python dict entry overwrite. -/
def assocSet {β : Type} (l : List (String × β)) (k : String) (v : β) : List (String × β) :=
  l.map (fun kv => if kv.1 = k then (k, v) else kv)

/-- One step of the `_etype2canonical` construction loop: a name already in
the dict is overwritten with the empty tuple (modelled as the value `none`) to
record ambiguity, a fresh name is bound to its canonical triple. -/
def e2cStep (m : List (String × Option Triple)) (p : String × Triple) :
    List (String × Option Triple) :=
  if (m.lookup p.1).isSome then assocSet m p.1 none else m ++ [(p.1, some p.2)]

/-- The `_etype2canonical` map built in `DGLHeteroGraph.__init__` by iterating
the edge types in order. -/
def etype2canonical (g : HGMeta) : List (String × Option Triple) :=
  (g.etypes.zip (make_canonical_etypes g)).foldl e2cStep []

/-- An edge-type argument: either a bare relation name or a full canonical
triple. -/
inductive EtypeArg where
  | name (s : String)
  | canonical (t : Triple)
deriving DecidableEq

/-- `DGLHeteroGraph.to_canonical_etype`: a tuple passes through; a bare name is
looked up in `_etype2canonical`, failing on unknown names and on names marked
ambiguous. -/
def to_canonical_etype (g : HGMeta) : EtypeArg → Except DGLError Triple
  | .canonical t => .ok t
  | .name s =>
    match (etype2canonical g).lookup s with
    | none => .error .unknownType
    | some none => .error .ambiguousType
    | some (some t) => .ok t

/-- The `_ntypes_invmap` dict comprehension: lookup by name, last index wins. -/
def invmapLookup (l : List String) (s : String) : Option Nat :=
  (List.range l.length).foldl (fun acc i => if l.getD i "" = s then some i else acc) none

/-- `DGLHeteroGraph.get_ntype_id`: `None` succeeds (with id 0) only when
exactly one node type exists; otherwise the name is resolved through the
inverse map and unknown names fail. -/
def get_ntype_id (g : HGMeta) (ntype : Option String) : Except DGLError Nat :=
  match ntype with
  | none => if g.ntypes.length ≠ 1 then .error .typeNameRequired else .ok 0
  | some s =>
    match invmapLookup g.ntypes s with
    | none => .error .unknownType
    | some i => .ok i

/-- The `_etypes_invmap` dict comprehension keyed on canonical triples. -/
def etypesInvmapLookup (g : HGMeta) (t : Triple) : Option Nat :=
  (List.range (make_canonical_etypes g).length).foldl
    (fun acc i => if (make_canonical_etypes g).getD i ("", "", "") = t then some i else acc) none

/-- `DGLHeteroGraph.get_etype_id`: `None` succeeds (with id 0) only when
exactly one edge type exists; otherwise the argument is canonicalized via
`to_canonical_etype` (propagating its unknown/ambiguity errors) and looked up
in the inverse map. -/
def get_etype_id (g : HGMeta) (etype : Option EtypeArg) : Except DGLError Nat :=
  match etype with
  | none => if g.etypes.length ≠ 1 then .error .typeNameRequired else .ok 0
  | some a =>
    match to_canonical_etype g a with
    | .error e => .error e
    | .ok t =>
      match etypesInvmapLookup g t with
      | none => .error .unknownType
      | some i => .ok i


/-- Looking up a key in an appended association list. -/
theorem lookup_append {α : Type} (m1 m2 : List (String × α)) (s : String) :
    (m1 ++ m2).lookup s = ((m1.lookup s).orElse (fun _ => m2.lookup s)) := by
  induction m1 with
  | nil => simp [List.lookup]
  | cons kv m ih =>
    simp only [List.cons_append, List.lookup]
    cases h : s == kv.1 <;> simp [h, ih]

/-- Looking up the overwritten key after `assocSet`. -/
theorem lookup_assocSet_self {α : Type} (l : List (String × α)) (k : String) (v : α) :
    (assocSet l k v).lookup k =
      (match l.lookup k with | some _ => some v | none => none) := by
  induction l with
  | nil => simp [assocSet, List.lookup]
  | cons kv m ih =>
    simp only [assocSet, List.map_cons] at ih ⊢
    by_cases hk : kv.1 = k
    · rw [if_pos hk]
      have hb : (k == kv.1) = true := by simp [hk]
      simp [List.lookup, hb]
    · rw [if_neg hk]
      have hb : (k == kv.1) = false := by
        simp only [beq_eq_false_iff_ne, ne_eq]
        intro h
        exact hk h.symm
      simp [List.lookup, hb, ih]

/-- `assocSet` leaves other keys untouched. -/
theorem lookup_assocSet_ne {α : Type} (l : List (String × α)) (k s : String) (v : α)
    (h : ¬ s = k) : (assocSet l k v).lookup s = l.lookup s := by
  induction l with
  | nil => simp [assocSet]
  | cons kv m ih =>
    simp only [assocSet, List.map_cons] at ih ⊢
    by_cases hk : kv.1 = k
    · rw [if_pos hk]
      have h1 : (s == k) = false := by simp [h]
      have h2 : (s == kv.1) = false := by rw [hk]; exact h1
      simp [List.lookup, h1, h2, ih]
    · rw [if_neg hk]
      cases hb : s == kv.1 <;> simp [List.lookup, hb, ih]

/-- Once a name is recorded as ambiguous, the construction loop keeps it so. -/
theorem e2c_fold_keeps (l : List (String × Triple)) (m : List (String × Option Triple))
    (s : String) (hm : m.lookup s = some none) :
    (l.foldl e2cStep m).lookup s = some none := by
  induction l generalizing m with
  | nil => exact hm
  | cons p l ih =>
    simp only [List.foldl_cons]
    apply ih
    unfold e2cStep
    by_cases hp : (m.lookup p.1).isSome
    · rw [if_pos hp]
      by_cases hs : s = p.1
      · rw [hs, lookup_assocSet_self, ← hs, hm]
      · rw [lookup_assocSet_ne _ _ _ _ hs]
        exact hm
    · rw [if_neg hp, lookup_append, hm]
      rfl

/-- A name already in the dict that occurs again later ends up ambiguous. -/
theorem e2c_fold_present (l : List (String × Triple)) (m : List (String × Option Triple))
    (s : String) (hm : (m.lookup s).isSome) (hs : s ∈ l.map Prod.fst) :
    (l.foldl e2cStep m).lookup s = some none := by
  induction l generalizing m with
  | nil => simp at hs
  | cons p l ih =>
    simp only [List.foldl_cons]
    by_cases hsp : s = p.1
    · apply e2c_fold_keeps
      unfold e2cStep
      have hp : (m.lookup p.1).isSome := by rw [← hsp]; exact hm
      rw [if_pos hp, hsp, lookup_assocSet_self]
      rw [hsp] at hm
      cases hq : m.lookup p.1 with
      | none => rw [hq] at hm; simp at hm
      | some v => rfl
    · have hs2 : s ∈ l.map Prod.fst := by
        rw [List.map_cons] at hs
        rcases List.mem_cons.mp hs with h | h
        · exact absurd h hsp
        · exact h
      apply ih _ ?_ hs2
      unfold e2cStep
      by_cases hp : (m.lookup p.1).isSome
      · rw [if_pos hp, lookup_assocSet_ne _ _ _ _ hsp]
        exact hm
      · rw [if_neg hp, lookup_append]
        cases hq : m.lookup s with
        | none => rw [hq] at hm; simp at hm
        | some v => simp [hq]

/-- A name occurring at least twice among the processed edge types is looked
up as ambiguous. -/
theorem e2c_fold_amb (l : List (String × Triple)) (m : List (String × Option Triple))
    (s : String) (h2 : 2 ≤ (l.map Prod.fst).count s) :
    (l.foldl e2cStep m).lookup s = some none := by
  induction l generalizing m with
  | nil => simp at h2
  | cons p l ih =>
    simp only [List.foldl_cons]
    by_cases hsp : s = p.1
    · have hmem : s ∈ l.map Prod.fst := by
        apply List.count_pos_iff.mp
        have hc : ((p :: l).map Prod.fst).count s
            = (l.map Prod.fst).count s + (if p.1 = s then 1 else 0) := by
          simp [List.count_cons]
        rw [hc] at h2
        split at h2 <;> omega
      apply e2c_fold_present l _ s ?_ hmem
      unfold e2cStep
      by_cases hp : (m.lookup p.1).isSome
      · rw [if_pos hp, hsp, lookup_assocSet_self]
        cases hq : m.lookup p.1 with
        | none => rw [hq] at hp; simp at hp
        | some v => rfl
      · rw [if_neg hp, lookup_append]
        have hq : m.lookup s = none := by
          rw [hsp]
          cases hq2 : m.lookup p.1 with
          | none => rfl
          | some v => rw [hq2] at hp; simp at hp
        have hb : (s == p.1) = true := by simp [hsp]
        simp [hq, List.lookup, hb]
    · have h2t : 2 ≤ (l.map Prod.fst).count s := by
        have hc : ((p :: l).map Prod.fst).count s
            = (l.map Prod.fst).count s + (if p.1 = s then 1 else 0) := by
          simp [List.count_cons]
        rw [hc] at h2
        have : ¬ p.1 = s := fun h => hsp h.symm
        rw [if_neg this] at h2
        omega
      exact ih _ h2t

/-- A name occurring nowhere among the processed edge types stays unknown. -/
theorem e2c_fold_none (l : List (String × Triple)) (m : List (String × Option Triple))
    (s : String) (hm : m.lookup s = none) (hns : s ∉ l.map Prod.fst) :
    (l.foldl e2cStep m).lookup s = none := by
  induction l generalizing m with
  | nil => exact hm
  | cons p l ih =>
    simp only [List.foldl_cons]
    have hsp : ¬ s = p.1 := by
      intro h
      exact hns (by simp [h])
    have hns2 : s ∉ l.map Prod.fst := by
      intro h
      exact hns (by simp [h])
    apply ih _ ?_ hns2
    unfold e2cStep
    by_cases hp : (m.lookup p.1).isSome
    · rw [if_pos hp, lookup_assocSet_ne _ _ _ _ hsp]
      exact hm
    · rw [if_neg hp, lookup_append]
      have hb : (s == p.1) = false := by simp [hsp]
      simp [hm, List.lookup, hb]


/-- The keys fed to the `_etype2canonical` loop are exactly the edge type
names. -/
theorem e2c_keys (g : HGMeta) :
    (g.etypes.zip (make_canonical_etypes g)).map Prod.fst = g.etypes :=
  List.map_fst_zip _ _ (by simp [make_canonical_etypes])

/-- A fold searching with an always-false predicate finds nothing. -/
theorem foldl_find_none {α β : Type} (l : List α) (p : α → Prop) [DecidablePred p]
    (f : α → β) (h : ∀ a ∈ l, ¬ p a) :
    l.foldl (fun o x => if p x then some (f x) else o) none = none := by
  induction l with
  | nil => rfl
  | cons x l ih =>
    simp only [List.foldl_cons, if_neg (h x (List.mem_cons_self x l))]
    exact ih (fun a ha => h a (List.mem_cons_of_mem x ha))

/-- A fold searching with a somewhere-true predicate finds something. -/
theorem foldl_find_isSome {α β : Type} (l : List α) (p : α → Prop) [DecidablePred p]
    (f : α → β) (acc : Option β) (h : (∃ a ∈ l, p a) ∨ acc.isSome) :
    (l.foldl (fun o x => if p x then some (f x) else o) acc).isSome := by
  induction l generalizing acc with
  | nil =>
    rcases h with ⟨a, ha, _⟩ | h
    · simp at ha
    · exact h
  | cons x l ih =>
    simp only [List.foldl_cons]
    apply ih
    by_cases hx : p x
    · right
      simp [hx]
    · rcases h with ⟨a, ha, hpa⟩ | hacc
      · rcases List.mem_cons.mp ha with rfl | ha2
        · exact absurd hpa hx
        · left
          exact ⟨a, ha2, hpa⟩
      · right
        simpa [hx] using hacc

/-- Unknown node-type names are absent from the inverse map. -/
theorem invmapLookup_eq_none (l : List String) (s : String) (h : s ∉ l) :
    invmapLookup l s = none := by
  unfold invmapLookup
  apply foldl_find_none
  intro i hi hgi
  have hilt : i < l.length := List.mem_range.mp hi
  rw [getD_eq_getElem l "" i hilt] at hgi
  exact h (hgi ▸ List.getElem_mem hilt)

/-- A canonical triple of the graph is found by the edge-type inverse map. -/
theorem etypesInvmapLookup_isSome (g : HGMeta) (t : Triple)
    (h : t ∈ make_canonical_etypes g) : (etypesInvmapLookup g t).isSome := by
  unfold etypesInvmapLookup
  apply foldl_find_isSome
  left
  obtain ⟨i, hilt, hgi⟩ := List.getElem_of_mem h
  exact ⟨i, List.mem_range.mpr hilt, by rw [getD_eq_getElem _ _ _ hilt]; exact hgi⟩


/-- C4: resolving a node or edge type given `None` succeeds (with id 0) iff
the graph has exactly one type of that kind; unknown names always fail; when
two canonical edge types share a bare relation name, every bare-name
resolution fails with the ambiguity error while resolution by full canonical
triple succeeds. -/
theorem claim_C4 :
    (∀ g : HGMeta, (get_ntype_id g none = .ok 0 ↔ g.ntypes.length = 1) ∧
       (g.ntypes.length ≠ 1 → get_ntype_id g none = .error .typeNameRequired)) ∧
    (∀ g : HGMeta, (get_etype_id g none = .ok 0 ↔ g.etypes.length = 1) ∧
       (g.etypes.length ≠ 1 → get_etype_id g none = .error .typeNameRequired)) ∧
    (∀ (g : HGMeta) (s : String), s ∉ g.ntypes →
       get_ntype_id g (some s) = .error .unknownType) ∧
    (∀ (g : HGMeta) (s : String), s ∉ g.etypes →
       get_etype_id g (some (.name s)) = .error .unknownType) ∧
    (∀ (g : HGMeta) (s : String), 2 ≤ g.etypes.count s →
       to_canonical_etype g (.name s) = .error .ambiguousType ∧
       get_etype_id g (some (.name s)) = .error .ambiguousType) ∧
    (∀ (g : HGMeta) (t : Triple), t ∈ make_canonical_etypes g →
       ∃ i, get_etype_id g (some (.canonical t)) = .ok i) := by
  refine ⟨?_, ?_, ?_, ?_, ?_, ?_⟩
  · intro g
    by_cases h : g.ntypes.length = 1 <;> simp [get_ntype_id, h]
  · intro g
    by_cases h : g.etypes.length = 1 <;> simp [get_etype_id, h]
  · intro g s h
    simp [get_ntype_id, invmapLookup_eq_none g.ntypes s h]
  · intro g s h
    have hl : (etype2canonical g).lookup s = none := by
      unfold etype2canonical
      exact e2c_fold_none _ _ _ rfl (by rw [e2c_keys]; exact h)
    simp [get_etype_id, to_canonical_etype, hl]
  · intro g s h
    have hl : (etype2canonical g).lookup s = some none := by
      unfold etype2canonical
      exact e2c_fold_amb _ _ _ (by rw [e2c_keys]; exact h)
    constructor
    · simp [to_canonical_etype, hl]
    · simp [get_etype_id, to_canonical_etype, hl]
  · intro g t h
    have hl := etypesInvmapLookup_isSome g t h
    obtain ⟨i, hi⟩ := Option.isSome_iff_exists.mp hl
    exact ⟨i, by simp [get_etype_id, to_canonical_etype, hi]⟩

/-- C4 witness: a concrete graph whose two canonical edge types
`("user", "follows", "user")` and `("game", "follows", "game")` share the bare
name; the bare name fails as ambiguous, the triple resolves, `None` fails for
the two-type kind, and an unknown name fails. -/
theorem claim_C4_witness :
    to_canonical_etype ⟨["user", "game"], ["follows", "follows"], [(0, 0), (1, 1)]⟩
        (.name "follows") = .error .ambiguousType ∧
    (∃ i, get_etype_id ⟨["user", "game"], ["follows", "follows"], [(0, 0), (1, 1)]⟩
        (some (.canonical ("user", "follows", "user"))) = .ok i) ∧
    get_ntype_id ⟨["user", "game"], ["follows", "follows"], [(0, 0), (1, 1)]⟩ none
        = .error .typeNameRequired ∧
    get_ntype_id ⟨["user", "game"], ["follows", "follows"], [(0, 0), (1, 1)]⟩ (some "dev")
        = .error .unknownType :=
  ⟨(claim_C4.2.2.2.2.1 ⟨["user", "game"], ["follows", "follows"], [(0, 0), (1, 1)]⟩
      "follows" (by decide)).1,
   claim_C4.2.2.2.2.2 ⟨["user", "game"], ["follows", "follows"], [(0, 0), (1, 1)]⟩
      ("user", "follows", "user") (by decide),
   (claim_C4.1 ⟨["user", "game"], ["follows", "follows"], [(0, 0), (1, 1)]⟩).2 (by decide),
   claim_C4.2.2.1 ⟨["user", "game"], ["follows", "follows"], [(0, 0), (1, 1)]⟩
      "dev" (by decide)⟩


/-- A feature row (one entity's tensor, flattened). -/
abbrev Row := List Int

/-- A feature column: one row per entity; the leading dimension is the list
length. -/
abbrev Column := List Row

/-- A feature frame: ordered mapping from field name to column. -/
abbrev Frame := List (String × Column)

/-- Row selection argument of `_set_n_repr` / `_set_e_repr`: `ALL` or an
explicit id list. -/
inductive Sel where
  | all
  | rows (u : List Nat)
deriving DecidableEq

/-- The expected leading dimension of a value: the full entity count for `ALL`,
otherwise the number of selected ids. -/
def selSize (numEntities : Nat) : Sel → Nat
  | .all => numEntities
  | .rows u => u.length

/-- Python dict assignment: overwrite an existing key or append a new binding. -/
def assocSetOrAdd {β : Type} (l : List (String × β)) (k : String) (v : β) :
    List (String × β) :=
  if (l.lookup k).isSome then assocSet l k v else l ++ [(k, v)]

/-- Write `vals[j]` into row `u[j]` of a column. -/
def updateColumnRows (col : Column) (u : List Nat) (vals : Column) : Column :=
  (u.zip vals).foldl (fun c p => c.set p.1 p.2) col

/-- Whole-column writes (`self._node_frames[ntid][key] = val` for every field). -/
def frameSetAll (f : Frame) (data : List (String × Column)) : Frame :=
  data.foldl (fun fr kv => assocSetOrAdd fr kv.1 kv.2) f

/-- Modelled from the spec: `FrameRef.update_rows` (`dgl/frame.py` is not in
the sources) — a row-subset write updates the selected rows of each existing
column; a missing field is back-filled by the registered/default initializer
(zero rows) before the subset write. -/
def frameUpdateRows (numEntities : Nat) (f : Frame) (u : List Nat)
    (data : List (String × Column)) : Frame :=
  data.foldl (fun fr kv =>
    match fr.lookup kv.1 with
    | some col => assocSet fr kv.1 (updateColumnRows col u kv.2)
    | none => fr ++ [(kv.1, updateColumnRows (List.replicate numEntities []) u kv.2)]) f

/-- Common body of `_set_n_repr` and `_set_e_repr`: first the validation loop
over every field of `data` (raising `DGLError` on a leading-dimension
mismatch, before any write), then the writes. -/
def setRepr (numEntities : Nat) (frame : Frame) (sel : Sel)
    (data : List (String × Column)) : Frame × Option DGLError :=
  let num := selSize numEntities sel
  if data.any (fun kv => kv.2.length ≠ num) then (frame, some .shapeMismatch)
  else
    match sel with
    | .all => (frameSetAll frame data, none)
    | .rows us => (frameUpdateRows numEntities frame us data, none)

/-- `DGLHeteroGraph._set_n_repr`. -/
def set_n_repr (numNodes : Nat) (frame : Frame) (u : Sel)
    (data : List (String × Column)) : Frame × Option DGLError :=
  setRepr numNodes frame u data

/-- `DGLHeteroGraph._set_e_repr` (edge selection already resolved to ids). -/
def set_e_repr (numEdges : Nat) (frame : Frame) (eids : Sel)
    (data : List (String × Column)) : Frame × Option DGLError :=
  setRepr numEdges frame eids data

/-- C5: a node- or edge-feature set call with a (possibly multi-field) data
dictionary fails with the shape-mismatch error and leaves the frame completely
unmutated as soon as any field's leading dimension differs from the selection
size; when every field matches, no error is raised.  All fields are validated
before the first write, so there are no partial column writes on failure. -/
theorem claim_C5 (numNodes numEdges : Nat) (nf ef : Frame) (u e : Sel)
    (data : List (String × Column)) :
    ((∃ kv ∈ data, kv.2.length ≠ selSize numNodes u) →
       set_n_repr numNodes nf u data = (nf, some .shapeMismatch)) ∧
    ((∀ kv ∈ data, kv.2.length = selSize numNodes u) →
       (set_n_repr numNodes nf u data).2 = none) ∧
    ((∃ kv ∈ data, kv.2.length ≠ selSize numEdges e) →
       set_e_repr numEdges ef e data = (ef, some .shapeMismatch)) ∧
    ((∀ kv ∈ data, kv.2.length = selSize numEdges e) →
       (set_e_repr numEdges ef e data).2 = none) := by
  have hcore : ∀ (n : Nat) (fr : Frame) (sel : Sel),
      ((∃ kv ∈ data, kv.2.length ≠ selSize n sel) →
        setRepr n fr sel data = (fr, some .shapeMismatch)) ∧
      ((∀ kv ∈ data, kv.2.length = selSize n sel) → (setRepr n fr sel data).2 = none) := by
    intro n fr sel
    constructor
    · intro hbad
      have hany : data.any (fun kv => kv.2.length ≠ selSize n sel) = true := by
        rw [List.any_eq_true]
        obtain ⟨kv, hmem, hne⟩ := hbad
        exact ⟨kv, hmem, by simpa using hne⟩
      unfold setRepr
      rw [if_pos hany]
    · intro hgood
      have hany : data.any (fun kv => kv.2.length ≠ selSize n sel) = false := by
        rw [List.any_eq_false]
        intro kv hmem
        simp [hgood kv hmem]
      unfold setRepr
      rw [if_neg (by rw [hany]; simp)]
      cases sel <;> rfl
  exact ⟨(hcore numNodes nf u).1, (hcore numNodes nf u).2,
    (hcore numEdges ef e).1, (hcore numEdges ef e).2⟩

/-- C5 witness: a concrete two-field write where the second field's leading
dimension is wrong fails with the shape-mismatch error and leaves the frame
untouched (the first field is not partially written). -/
theorem claim_C5_witness :
    set_n_repr 2 [("h", [[1], [2]])] .all [("h", [[5], [6]]), ("w", [[7]])]
      = ([("h", [[1], [2]])], some .shapeMismatch) :=
  (claim_C5 2 0 [("h", [[1], [2]])] [] .all .all [("h", [[5], [6]]), ("w", [[7]])]).1
    (by decide)


/-- Overwriting or adding a key always makes it the looked-up value. -/
theorem lookup_assocSetOrAdd_self {β : Type} (l : List (String × β)) (k : String) (v : β) :
    (assocSetOrAdd l k v).lookup k = some v := by
  unfold assocSetOrAdd
  by_cases hp : (l.lookup k).isSome
  · rw [if_pos hp, lookup_assocSet_self]
    cases hq : l.lookup k with
    | none => rw [hq] at hp; simp at hp
    | some v2 => rfl
  · rw [if_neg hp, lookup_append]
    cases hq : l.lookup k with
    | some v2 => rw [hq] at hp; simp at hp
    | none => simp [List.lookup, hq]

/-- Overwriting or adding a key leaves other keys untouched. -/
theorem lookup_assocSetOrAdd_ne {β : Type} (l : List (String × β)) (k s : String) (v : β)
    (h : ¬ s = k) : (assocSetOrAdd l k v).lookup s = l.lookup s := by
  unfold assocSetOrAdd
  by_cases hp : (l.lookup k).isSome
  · rw [if_pos hp, lookup_assocSet_ne _ _ _ _ h]
  · rw [if_neg hp, lookup_append]
    have hb : (s == k) = false := by simp [h]
    cases hq : l.lookup s <;> simp [List.lookup, hb, hq]

/-- The last cell of a one-element extension. -/
theorem getD_append_self {α : Type} (l : List α) (c : α) (d : α) :
    (l ++ [c]).getD l.length d = c := by
  induction l with
  | nil => rfl
  | cons x l ih => simp [ih]

/-- Cells below the old length are unchanged by a one-element extension. -/
theorem getD_append_lt {α : Type} (l : List α) (c : α) (d : α) (i : Nat)
    (h : i < l.length) : (l ++ [c]).getD i d = l.getD i d := by
  induction l generalizing i with
  | nil => simp at h
  | cons x l ih =>
    cases i with
    | zero => rfl
    | succ j => simpa using ih j (by simpa using h)

/-- Modelled from the spec: the column store of a scoped view.  `heap` holds
column payloads by id (a write allocates a fresh id — whole-column
copy-on-write), `mapping` is the frame: field name to column id.
(`dgl/frame.py`, whose `Frame(other._frame)` constructor copies the
field-to-column dictionary without copying column contents, is not in the
sources.) -/
structure ScopeState where
  heap : List (List Int)
  mapping : List (String × Nat)
deriving DecidableEq

/-- A whole-column write executed inside a scoped view. -/
inductive SOp where
  | setCol (k : String) (col : List Int)
deriving DecidableEq

/-- Execute one scoped write: allocate a fresh column id and (re)bind the field
name to it in the view's mapping; existing heap cells are never mutated. -/
def applySOp (st : ScopeState) : SOp → ScopeState
  | .setCol k col =>
    { heap := st.heap ++ [col],
      mapping := assocSetOrAdd st.mapping k st.heap.length }

/-- Run a sequence of scoped writes on the view. -/
def runScope (st : ScopeState) (ops : List SOp) : ScopeState :=
  ops.foldl applySOp st

/-- `DGLHeteroGraph.local_scope` / `local_var`: the scope starts from a copy of
the frame mapping sharing all columns; on normal exit the original mapping is
restored (`self._node_frames = old_nframes`), and with `raises = true` the
generator is never resumed past the `yield`, so the graph keeps the temporary
frames. -/
def local_scope_run (orig : ScopeState) (ops : List SOp) (raises : Bool) : ScopeState :=
  match raises with
  | true => runScope orig ops
  | false => { heap := (runScope orig ops).heap, mapping := orig.mapping }

/-- Read a field of the store: the payload of the column its frame maps the
name to. -/
def readField (st : ScopeState) (k : String) : Option (List Int) :=
  match st.mapping.lookup k with
  | some id => some (st.heap.getD id [])
  | none => none

/-- Scoped writes only ever append to the heap. -/
theorem runScope_heap_stable (ops : List SOp) (st : ScopeState) :
    st.heap.length ≤ (runScope st ops).heap.length ∧
    ∀ i, i < st.heap.length → (runScope st ops).heap.getD i [] = st.heap.getD i [] := by
  induction ops generalizing st with
  | nil => exact ⟨Nat.le_refl _, fun i _ => rfl⟩
  | cons op ops ih =>
    obtain ⟨k, col⟩ := op
    have step : runScope st (SOp.setCol k col :: ops) = runScope (applySOp st (.setCol k col)) ops := rfl
    rw [step]
    obtain ⟨hlen, hstable⟩ := ih (applySOp st (.setCol k col))
    constructor
    · calc st.heap.length ≤ (applySOp st (.setCol k col)).heap.length := by
            simp [applySOp]
        _ ≤ _ := hlen
    · intro i hi
      rw [hstable i (by simp [applySOp]; omega)]
      simp only [applySOp]
      exact getD_append_lt st.heap col [] i hi

/-- A field binding produced inside the scope is either inherited unchanged or
points at a freshly allocated column id. -/
theorem runScope_mapping_fresh (ops : List SOp) (st : ScopeState) (k : String) (id2 : Nat)
    (h : (runScope st ops).mapping.lookup k = some id2) :
    st.mapping.lookup k = some id2 ∨ st.heap.length ≤ id2 := by
  induction ops generalizing st with
  | nil => exact Or.inl h
  | cons op ops ih =>
    obtain ⟨k2, col⟩ := op
    have step : runScope st (SOp.setCol k2 col :: ops) = runScope (applySOp st (.setCol k2 col)) ops := rfl
    rw [step] at h
    rcases ih (applySOp st (.setCol k2 col)) h with h2 | h2
    · simp only [applySOp] at h2
      by_cases hk : k = k2
      · rw [hk, lookup_assocSetOrAdd_self] at h2
        have h3 := Option.some.inj h2
        right
        omega
      · rw [lookup_assocSetOrAdd_ne _ _ _ _ hk] at h2
        exact Or.inl h2
    · simp only [applySOp, List.length_append] at h2
      right
      omega


/-- C6: fields created on a `local_var` copy or inside a `local_scope` are
absent from the original frames once the scope ends; rebinding a whole column
inside the scope neither changes which column the original frame maps a field
to nor the content of any pre-existing column (copy-on-write allocates fresh
columns only). -/
theorem claim_C6 (orig : ScopeState) (ops : List SOp)
    (hwf : ∀ k id, orig.mapping.lookup k = some id → id < orig.heap.length) :
    (∀ k, orig.mapping.lookup k = none → readField (local_scope_run orig ops false) k = none) ∧
    (∀ k, readField (local_scope_run orig ops false) k = readField orig k) ∧
    (∀ k id2, (runScope orig ops).mapping.lookup k = some id2 →
        orig.mapping.lookup k ≠ some id2 → orig.heap.length ≤ id2) := by
  have hstable := runScope_heap_stable ops orig
  refine ⟨?_, ?_, ?_⟩
  · intro k hk
    simp [readField, local_scope_run, hk]
  · intro k
    cases hk : orig.mapping.lookup k with
    | none => simp [readField, local_scope_run, hk]
    | some id =>
      simp only [readField, local_scope_run, hk]
      rw [hstable.2 id (hwf k id hk)]
  · intro k id2 hview horig
    rcases runScope_mapping_fresh ops orig k id2 hview with h | h
    · exact absurd h horig
    · exact h

/-- C6 witness: a concrete store with one field `"h"`; the scope creates
`"x"` and rebinds `"h"`: after normal exit `"x"` is absent and `"h"` reads its
original column, and the scope's own binding of `"h"` is a fresh column id. -/
theorem claim_C6_witness :
    readField (local_scope_run ⟨[[1, 2]], [("h", 0)]⟩
        [.setCol "x" [9], .setCol "h" [7, 7]] false) "x" = none ∧
    readField (local_scope_run ⟨[[1, 2]], [("h", 0)]⟩
        [.setCol "x" [9], .setCol "h" [7, 7]] false) "h"
      = readField ⟨[[1, 2]], [("h", 0)]⟩ "h" ∧
    1 ≤ 2 := by
  have hwf : ∀ (k : String) (id : Nat),
      List.lookup k ([("h", 0)] : List (String × Nat)) = some id → id < 1 := by
    intro k id h
    cases hb : k == "h" with
    | false => simp [List.lookup, hb] at h
    | true =>
      simp [List.lookup, hb] at h
      omega
  exact ⟨(claim_C6 ⟨[[1, 2]], [("h", 0)]⟩ [.setCol "x" [9], .setCol "h" [7, 7]]
      hwf).1 "x" (by decide),
    (claim_C6 ⟨[[1, 2]], [("h", 0)]⟩ [.setCol "x" [9], .setCol "h" [7, 7]]
      hwf).2.1 "h",
    (claim_C6 ⟨[[1, 2]], [("h", 0)]⟩ [.setCol "x" [9], .setCol "h" [7, 7]]
      hwf).2.2 "h" 2 (by decide) (by decide)⟩

/-- C10: if the body of a `local_scope` raises, the original frames are NOT
restored: there is no try/finally around the `yield`, so the graph stays bound
to the temporary frames, including fields created inside the scope — while a
normal exit restores the original mapping and such fields disappear. -/
theorem claim_C10 (orig : ScopeState) (ops : List SOp) (k : String) (col : List Int) :
    local_scope_run orig ops true = runScope orig ops ∧
    (orig.mapping.lookup k = none →
      readField (local_scope_run orig (ops ++ [.setCol k col]) true) k = some col ∧
      readField (local_scope_run orig (ops ++ [.setCol k col]) false) k = none) := by
  constructor
  · rfl
  · intro hk
    constructor
    · have hrun : runScope orig (ops ++ [.setCol k col])
          = applySOp (runScope orig ops) (.setCol k col) := by
        simp [runScope, List.foldl_append]
      show readField (runScope orig (ops ++ [.setCol k col])) k = some col
      rw [hrun]
      simp only [readField, applySOp, lookup_assocSetOrAdd_self]
      rw [getD_append_self]
    · simp [local_scope_run, readField, hk]

/-- C10 witness: concretely, a field `"t"` created inside a raising scope body
is still present afterwards, and is gone after a normal exit. -/
theorem claim_C10_witness :
    readField (local_scope_run ⟨[[1]], [("h", 0)]⟩ ([] ++ [.setCol "t" [4]]) true) "t"
      = some [4] ∧
    readField (local_scope_run ⟨[[1]], [("h", 0)]⟩ ([] ++ [.setCol "t" [4]]) false) "t"
      = none :=
  (claim_C10 ⟨[[1]], [("h", 0)]⟩ [] "t" [4]).2 (by decide)


/-- Kernel target codes (`TargetCode`: SRC/DST/EDGE). -/
inductive Target where
  | src
  | dst
  | edge
deriving DecidableEq

/-- The storage row a kernel target selects for edge `i`. -/
def targetIdx (g : MPGraph) : Target → Nat → Nat
  | .src, i => g.src i
  | .dst, i => g.dst i
  | .edge, i => i

/-- Elementwise row addition. -/
def rowAdd (a b : List ℚ) : List ℚ := List.zipWith (· + ·) a b

/-- Elementwise row maximum. -/
def rowMax (a b : List ℚ) : List ℚ := List.zipWith max a b

/-- Elementwise row minimum. -/
def rowMin (a b : List ℚ) : List ℚ := List.zipWith min a b

/-- The elementwise combinator a reducer name selects. -/
def reducerOp (reducer : String) : List ℚ → List ℚ → List ℚ :=
  match reducer with
  | "max" => rowMax
  | "min" => rowMin
  | _ => rowAdd

/-- The native `copy_reduce` kernel (external to the repository, modelled per
its interface contract): for every destination row `v`, reduce the
target-selected input rows of the edges entering `v`, starting from the
zero-filled output. -/
def kernelCopyReduce {α : Type} (op : α → α → α) (zero : α) (g : MPGraph) (target : Target)
    (inData : List α) (outSize : Nat) : List α :=
  (List.range outSize).map (fun v =>
    ((List.range g.edges.length).filterMap (fun i =>
      if g.dst i = v then some (inData.getD (targetIdx g target i) zero) else none)).foldl
      op zero)

/-- The native `binary_op_reduce` kernel (external, modelled per its interface
contract): combine the lhs- and rhs-selected rows elementwise with the binary
op on every edge, then reduce per destination. -/
def kernelBinaryOpReduce (op : List ℚ → List ℚ → List ℚ) (zero : List ℚ) (bop : ℚ → ℚ → ℚ)
    (g : MPGraph) (lhs rhs : Target) (lhs_data rhs_data : List (List ℚ))
    (outSize : Nat) : List (List ℚ) :=
  (List.range outSize).map (fun v =>
    ((List.range g.edges.length).filterMap (fun i =>
      if g.dst i = v then
        some (List.zipWith bop (lhs_data.getD (targetIdx g lhs i) zero)
          (rhs_data.getD (targetIdx g rhs i) zero))
      else none)).foldl op zero)

/-- The auxiliary degree tensor of the mean hack: `copy_reduce('sum')` over an
all-ones input, then `clamp(min=1)`. -/
def copyDegs (g : MPGraph) (target : Target) (n outSize : Nat) : List ℚ :=
  (kernelCopyReduce (· + ·) (0 : ℚ) g target (List.replicate n (1 : ℚ)) outSize).map
    (fun d => max d 1)

/-- Divide every output row by its destination's degree (the broadcasting
reshape of `degs` to `(N, 1, ..., 1)`). -/
def divRows (rows : List (List ℚ)) (degs : List ℚ) : List (List ℚ) :=
  List.zipWith (fun row d => row.map (· / d)) rows degs

/-- `CopyReduce.forward` (`backend/pytorch/tensor.py`): run the kernel with
`'sum'` substituted for `'mean'`; for `'mean'`, divide by the clamped
all-ones degree and save it for backward (returned as the second component). -/
def copy_reduce_forward (reducer : String) (g : MPGraph) (target : Target)
    (in_data : List (List ℚ)) (out_size w : Nat) : List (List ℚ) × Option (List ℚ) :=
  let out_data := kernelCopyReduce (reducerOp (if reducer = "mean" then "sum" else reducer))
    (List.replicate w 0) g target in_data out_size
  if reducer = "mean" then
    let degs := copyDegs g target in_data.length out_size
    (divRows out_data degs, some degs)
  else (out_data, none)

/-- `CopyReduce.backward`: for `'mean'`, the saved degree tensor divides the
upstream gradient before the `'sum'`-mode backward kernel (abstracted as `Kb`)
is rerun. -/
def copy_reduce_backward (Kb : String → List (List ℚ) → List (List ℚ)) (reducer : String)
    (degs : Option (List ℚ)) (grad_out : List (List ℚ)) : List (List ℚ) :=
  let grad2 := if reducer = "mean" then
      (match degs with
       | some d => divRows grad_out d
       | none => grad_out)
    else grad_out
  Kb (if reducer = "mean" then "sum" else reducer) grad2

/-- `BinaryReduce.forward`: run the binary kernel with `'sum'` substituted for
`'mean'`; for `'mean'`, compute the degree via `copy_reduce('sum')` over ones
of the non-destination operand's row count and divide. -/
def binary_reduce_forward (reducer : String) (bop : ℚ → ℚ → ℚ) (g : MPGraph)
    (lhs rhs : Target) (lhs_data rhs_data : List (List ℚ)) (out_size w : Nat) :
    List (List ℚ) × Option (List ℚ) :=
  let out_data := kernelBinaryOpReduce
    (reducerOp (if reducer = "mean" then "sum" else reducer))
    (List.replicate w 0) bop g lhs rhs lhs_data rhs_data out_size
  if reducer = "mean" then
    let target := if lhs ≠ Target.dst then lhs else rhs
    let n := if lhs ≠ Target.dst then lhs_data.length else rhs_data.length
    let degs := copyDegs g target n out_size
    (divRows out_data degs, some degs)
  else (out_data, none)

/-- `BinaryReduce.backward` (per-operand gradient): for `'mean'`, the saved
degree tensor divides the upstream gradient before the `'sum'`-mode backward
kernel (abstracted as `Kb`) is rerun. -/
def binary_reduce_backward (Kb : String → List (List ℚ) → List (List ℚ)) (reducer : String)
    (degs : Option (List ℚ)) (grad_out : List (List ℚ)) : List (List ℚ) :=
  let grad2 := if reducer = "mean" then
      (match degs with
       | some d => divRows grad_out d
       | none => grad_out)
    else grad_out
  Kb (if reducer = "mean" then "sum" else reducer) grad2


/-- A guarded `filterMap` is a `map` over a `filter`. -/
theorem filterMap_ite {α β : Type} (l : List α) (p : α → Prop) [DecidablePred p] (c : α → β) :
    l.filterMap (fun i => if p i then some (c i) else none)
      = (l.filter (fun i => p i)).map c := by
  induction l with
  | nil => rfl
  | cons x l ih =>
    by_cases hx : p x <;> simp [hx, ih]

/-- Summing a list of ones counts its length. -/
theorem foldl_add_ones (l : List ℚ) (h : ∀ x ∈ l, x = 1) (a : ℚ) :
    l.foldl (· + ·) a = a + l.length := by
  induction l generalizing a with
  | nil => simp
  | cons x l ih =>
    have hx := h x (List.mem_cons_self x l)
    rw [List.foldl_cons, ih (fun y hy => h y (List.mem_cons_of_mem x hy)), hx]
    push_cast [List.length_cons]
    ring

/-- The mean hack's degree tensor is the per-destination in-degree clamped to
a minimum of one, whenever the ones input covers every selected row. -/
theorem copyDegs_eq_indeg (g : MPGraph) (target : Target) (n outSize : Nat)
    (hn : ∀ i, i < g.edges.length → targetIdx g target i < n) :
    copyDegs g target n outSize = (List.range outSize).map
      (fun v => max (((List.range g.edges.length).countP (fun i => g.dst i = v) : ℚ)) 1) := by
  unfold copyDegs kernelCopyReduce
  rw [List.map_map]
  apply List.map_congr_left
  intro v _
  simp only [Function.comp]
  rw [filterMap_ite (List.range g.edges.length) (fun i => g.dst i = v)
    (fun i => (List.replicate n (1 : ℚ)).getD (targetIdx g target i) 0)]
  rw [foldl_add_ones _ ?ones 0]
  case ones =>
    intro x hx
    obtain ⟨i, hi, hxi⟩ := List.mem_map.mp hx
    have hilt : i < g.edges.length := List.mem_range.mp (List.mem_of_mem_filter hi)
    rw [← hxi, getD_eq_getElem _ _ _ (by simpa using hn i hilt)]
    simp
  rw [List.length_map]
  rw [← List.countP_eq_length_filter]
  simp

/-- C3: with reducer `'mean'`, both `copy_reduce` and `binary_reduce` return
exactly the `'sum'`-reducer output divided elementwise by the per-destination
degree obtained from an auxiliary `copy_reduce('sum')` over all-ones input and
clamped to a minimum of 1 (so every degree entry is at least 1 and no division
by zero occurs); the clamped degree equals the in-degree; and in the backward
pass the same saved degree tensor divides the upstream gradient before the
`'sum'`-mode backward kernel is rerun. -/
theorem claim_C3 :
    (∀ (g : MPGraph) (target : Target) (in_data : List (List ℚ)) (out_size w : Nat),
      (copy_reduce_forward "mean" g target in_data out_size w).1
        = divRows (copy_reduce_forward "sum" g target in_data out_size w).1
            (copyDegs g target in_data.length out_size) ∧
      (copy_reduce_forward "mean" g target in_data out_size w).2
        = some (copyDegs g target in_data.length out_size)) ∧
    (∀ (bop : ℚ → ℚ → ℚ) (g : MPGraph) (lhs rhs : Target)
        (lhs_data rhs_data : List (List ℚ)) (out_size w : Nat), lhs ≠ Target.dst →
      (binary_reduce_forward "mean" bop g lhs rhs lhs_data rhs_data out_size w).1
        = divRows (binary_reduce_forward "sum" bop g lhs rhs lhs_data rhs_data out_size w).1
            (copyDegs g lhs lhs_data.length out_size) ∧
      (binary_reduce_forward "mean" bop g lhs rhs lhs_data rhs_data out_size w).2
        = some (copyDegs g lhs lhs_data.length out_size)) ∧
    (∀ (g : MPGraph) (target : Target) (n out_size : Nat) (d : ℚ),
        d ∈ copyDegs g target n out_size → 1 ≤ d) ∧
    (∀ (g : MPGraph) (target : Target) (n out_size : Nat),
        (∀ i, i < g.edges.length → targetIdx g target i < n) →
        copyDegs g target n out_size = (List.range out_size).map
          (fun v => max (((List.range g.edges.length).countP
            (fun i => g.dst i = v) : ℚ)) 1)) ∧
    (∀ (Kb : String → List (List ℚ) → List (List ℚ)) (d : List ℚ) (grad : List (List ℚ)),
        copy_reduce_backward Kb "mean" (some d) grad = Kb "sum" (divRows grad d) ∧
        binary_reduce_backward Kb "mean" (some d) grad = Kb "sum" (divRows grad d)) := by
  refine ⟨?_, ?_, ?_, ?_, ?_⟩
  · intro g target in_data out_size w
    exact ⟨rfl, rfl⟩
  · intro bop g lhs rhs lhs_data rhs_data out_size w hlhs
    constructor <;> simp [binary_reduce_forward, hlhs]
  · intro g target n out_size d hd
    obtain ⟨x, _, hx⟩ := List.mem_map.mp hd
    rw [← hx]
    exact le_max_right x 1
  · exact copyDegs_eq_indeg
  · intro Kb d grad
    exact ⟨rfl, rfl⟩

/-- C3 witness: on the concrete relation with one edge `(0, 1)`, the clamped
degree tensor equals the clamped in-degrees `[max 0 1, max 1 1]`. -/
theorem claim_C3_witness :
    copyDegs ⟨2, [(0, 1)]⟩ .src 2 2 = (List.range 2).map
      (fun v => max (((List.range 1).countP (fun i =>
        MPGraph.dst ⟨2, [(0, 1)]⟩ i = v) : ℚ)) 1) :=
  claim_C3.2.2.2.1 ⟨2, [(0, 1)]⟩ .src 2 2 (by decide)


/-- A backend tensor of arbitrary rank (rational entries). -/
inductive Tensor where
  | scalar (q : ℚ)
  | vec (ts : List Tensor)

mutual
/-- Elementwise combination of two same-shaped tensors. -/
def tzip (f : ℚ → ℚ → ℚ) : Tensor → Tensor → Tensor
  | .scalar a, .scalar b => .scalar (f a b)
  | .vec as, .vec bs => .vec (tzipList f as bs)
  | t, _ => t
/-- Elementwise combination, lifted to lists of tensors. -/
def tzipList (f : ℚ → ℚ → ℚ) : List Tensor → List Tensor → List Tensor
  | a :: as, b :: bs => tzip f a b :: tzipList f as bs
  | _, _ => []
end

mutual
/-- Map a function over every entry of a tensor. -/
def tmap (f : ℚ → ℚ) : Tensor → Tensor
  | .scalar a => .scalar (f a)
  | .vec ts => .vec (tmapList f ts)
/-- Entry map, lifted to lists of tensors. -/
def tmapList (f : ℚ → ℚ) : List Tensor → List Tensor
  | [] => []
  | t :: ts => tmap f t :: tmapList f ts
end

/-- The slices of a tensor along its leading axis. -/
def tRows : Tensor → List Tensor
  | .vec ts => ts
  | .scalar _ => []

/-- The rank (number of axes) of a tensor, following its first slice. -/
def tRank : Tensor → Nat
  | .scalar _ => 0
  | .vec [] => 1
  | .vec (t :: _) => 1 + tRank t

/-- `F.stack(flist, 0)`: stack on a new leading axis. -/
def stack0 (ts : List Tensor) : Tensor := .vec ts

/-- `F.unsqueeze(f, 1)`: insert a singleton axis at position 1. -/
def unsqueeze1 : Tensor → Tensor
  | .vec rows => .vec (rows.map (fun r => .vec [r]))
  | .scalar q => .scalar q

/-- `F.stack(flist, 1)`: stack on a new axis at position 1 (the slice count is
taken from the first tensor, as all stacked tensors share one shape). -/
def stack1 (ts : List Tensor) : Tensor :=
  match ts with
  | [] => .vec []
  | t0 :: _ => .vec ((List.range (tRows t0).length).map (fun n =>
      .vec (ts.map (fun t => (tRows t).getD n (.scalar 0)))))

/-- Reduce a tensor along its leading axis with an elementwise combinator. -/
def reduceDim0 (op : ℚ → ℚ → ℚ) : Tensor → Tensor
  | .vec (t :: ts) => ts.foldl (tzip op) t
  | t => t

/-- `F.mean(t, 0)`: leading-axis mean. -/
def meanDim0 : Tensor → Tensor
  | .vec (t :: ts) => tmap (fun q => q / ((ts.length : ℚ) + 1)) (ts.foldl (tzip (· + ·)) t)
  | t => t

/-- The `getattr(F, reducer)` dispatch of `merge_frames`, applied at axis 0. -/
def crossRedFn (reducer : String) (t : Tensor) : Tensor :=
  match reducer with
  | "sum" => reduceDim0 (· + ·) t
  | "max" => reduceDim0 max t
  | "min" => reduceDim0 min t
  | "mean" => meanDim0 t
  | _ => t

/-- The conflict merger of `merge_frames`: `'stack'` unsqueezes each
contribution at axis 1 and stacks at axis 1; the other reducers stack on a new
leading axis and reduce over it. -/
def crossMerger (reducer : String) (flist : List Tensor) : Tensor :=
  if reducer = "stack" then stack1 (flist.map unsqueeze1)
  else crossRedFn reducer (stack0 flist)

/-- A tensor-valued feature frame (one output frame per relation). -/
abbrev FrameT := List (String × Tensor)

/-- The union of the input frames' field names (the Python `set` union;
key order is unspecified there, deduplication order here). -/
def frameKeys (frames : List FrameT) : List String :=
  (frames.foldl (fun acc f => acc ++ f.map Prod.fst) []).dedup

/-- The contributions to field `k`, in frame order. -/
def tensorsFor (frames : List FrameT) (k : String) : List Tensor :=
  frames.filterMap (fun f => f.lookup k)

/-- The valid cross-type reducers. -/
def validCrossReducers : List String := ["sum", "max", "min", "mean", "stack"]

/-- `merge_frames` (`heterograph.py`): a single input frame passes through;
otherwise every field present in at least two frames is combined with the
cross-reducer's merger and a field present in exactly one frame passes through
unchanged; an invalid reducer name raises `DGLError`. -/
def merge_frames (frames : List FrameT) (reducer : String) : Except DGLError FrameT :=
  if frames.length = 1 then .ok (frames.getD 0 [])
  else if reducer ∈ validCrossReducers then
    .ok ((frameKeys frames).map (fun k =>
      (k, if (tensorsFor frames k).length > 1 then crossMerger reducer (tensorsFor frames k)
          else (tensorsFor frames k).getD 0 (.scalar 0))))
  else .error .invalidReducer


/-- Looking up a key of a tabulated association list. -/
theorem lookup_tabulated {α : Type} (keys : List String) (f : String → α) (k : String)
    (hk : k ∈ keys) : (keys.map (fun k2 => (k2, f k2))).lookup k = some (f k) := by
  induction keys with
  | nil => simp at hk
  | cons k2 ks ih =>
    by_cases h : k = k2
    · subst h
      simp [List.lookup]
    · have hb : (k == k2) = false := by simp [h]
      simp only [List.map_cons, List.lookup, hb]
      rcases List.mem_cons.mp hk with h2 | h2
      · exact absurd h2 h
      · exact ih h2

/-- A successful lookup means the key occurs in the list. -/
theorem mem_of_lookup_eq_some {α : Type} (l : List (String × α)) (k : String) (v : α)
    (h : l.lookup k = some v) : k ∈ l.map Prod.fst := by
  induction l with
  | nil => simp [List.lookup] at h
  | cons kv m ih =>
    cases hb : k == kv.1 with
    | true =>
      simp only [List.map_cons, List.mem_cons]
      exact Or.inl (by simpa using hb)
    | false =>
      simp only [List.lookup, hb] at h
      simp only [List.map_cons, List.mem_cons]
      exact Or.inr (ih h)

/-- Membership in a fold of appended key lists. -/
theorem mem_foldl_append {α β : Type} (l : List α) (g : α → List β) (acc : List β) (x : β) :
    (x ∈ l.foldl (fun a f => a ++ g f) acc) ↔ (x ∈ acc ∨ ∃ f ∈ l, x ∈ g f) := by
  induction l generalizing acc with
  | nil => simp
  | cons f l ih =>
    simp only [List.foldl_cons]
    rw [ih]
    simp only [List.mem_append, List.mem_cons]
    constructor
    · rintro ((h | h) | ⟨f2, hf2, hx⟩)
      · exact Or.inl h
      · exact Or.inr ⟨f, Or.inl rfl, h⟩
      · exact Or.inr ⟨f2, Or.inr hf2, hx⟩
    · rintro (h | ⟨f2, (rfl | hf2), hx⟩)
      · exact Or.inl (Or.inl h)
      · exact Or.inl (Or.inr hx)
      · exact Or.inr ⟨f2, hf2, hx⟩

/-- A field with at least one contribution is among the merged keys. -/
theorem mem_frameKeys (frames : List FrameT) (k : String)
    (h : tensorsFor frames k ≠ []) : k ∈ frameKeys frames := by
  obtain ⟨t, ht⟩ := List.exists_mem_of_ne_nil _ h
  obtain ⟨f, hf, hlk⟩ := List.mem_filterMap.mp ht
  rw [frameKeys, List.mem_dedup, mem_foldl_append]
  exact Or.inr ⟨f, hf, mem_of_lookup_eq_some f k t hlk⟩

/-- The merged frame's entry for any contributing field, in the multi-frame
case. -/
theorem merge_frames_lookup (frames : List FrameT) (reducer : String) (k : String)
    (hred : reducer ∈ validCrossReducers) (hne : tensorsFor frames k ≠ [])
    (h2 : frames.length ≠ 1) :
    ∃ fr, merge_frames frames reducer = .ok fr ∧
      fr.lookup k = some (if (tensorsFor frames k).length > 1
        then crossMerger reducer (tensorsFor frames k)
        else (tensorsFor frames k).getD 0 (.scalar 0)) := by
  unfold merge_frames
  rw [if_neg h2, if_pos hred]
  exact ⟨_, rfl, lookup_tabulated (frameKeys frames)
    (fun k2 => if (tensorsFor frames k2).length > 1 then crossMerger reducer (tensorsFor frames k2)
      else (tensorsFor frames k2).getD 0 (.scalar 0)) k (mem_frameKeys frames k hne)⟩

/-- Indexing below the length through a `map`. -/
theorem getD_map_lt {α β : Type} (l : List α) (f : α → β) (d : β) (i : Nat)
    (h : i < l.length) : (l.map f).getD i d = f l[i] := by
  rw [getD_eq_getElem _ _ i (by simpa using h), List.getElem_map]


/-- The rows of the 'stack' merger's output: the relation axis sits at
position 1 and each contribution carries an extra singleton axis. -/
theorem stack1_unsqueeze_rows (t1 t2 : Tensor) (n : Nat)
    (h1 : n < (tRows t1).length) (h2 : n < (tRows t2).length) :
    (tRows (stack1 [unsqueeze1 t1, unsqueeze1 t2])).getD n (.scalar 0)
      = .vec [.vec [(tRows t1).getD n (.scalar 0)], .vec [(tRows t2).getD n (.scalar 0)]] := by
  cases t1 with
  | scalar q => simp [tRows] at h1
  | vec rows1 =>
    cases t2 with
    | scalar q => simp [tRows] at h2
    | vec rows2 =>
      simp only [tRows] at h1 h2 ⊢
      simp only [unsqueeze1, stack1, tRows, List.length_map]
      rw [getD_range_map _ _ _ _ (by simpa using h1)]
      simp only [List.map_cons, List.map_nil, tRows]
      rw [getD_map_lt rows1 _ _ n h1, getD_map_lt rows2 _ _ n h2,
        getD_eq_getElem rows1 _ n h1, getD_eq_getElem rows2 _ n h2]

/-- The claim's reading of the 'stack' cross-reducer, stated from the spec's
words: the conflicting field is stacked across relations on a new leading
(post-batch) axis which is kept, with no other change to each contribution. -/
def specStackMerge (flist : List Tensor) : Tensor := stack1 flist

/-- C7 counterexample: merging two single-field frames with `'stack'` does not
return the contributions stacked on one new post-batch axis (shape `(1,2,1)`);
the code first unsqueezes each contribution, so the result carries an extra
singleton axis (shape `(1,2,1,1)`) and has rank 4, not 3. -/
theorem claim_C7_counterexample :
    merge_frames [[("x", Tensor.vec [Tensor.vec [Tensor.scalar 1]])],
        [("x", Tensor.vec [Tensor.vec [Tensor.scalar 2]])]] "stack"
      = .ok [("x", Tensor.vec [Tensor.vec [Tensor.vec [Tensor.vec [Tensor.scalar 1]],
          Tensor.vec [Tensor.vec [Tensor.scalar 2]]]])] ∧
    Tensor.vec [Tensor.vec [Tensor.vec [Tensor.vec [Tensor.scalar 1]],
        Tensor.vec [Tensor.vec [Tensor.scalar 2]]]]
      ≠ specStackMerge [Tensor.vec [Tensor.vec [Tensor.scalar 1]],
          Tensor.vec [Tensor.vec [Tensor.scalar 2]]] := by
  constructor
  · rfl
  · intro h
    exact absurd (congrArg tRank h) (by decide)

/-- C7 (amended): in a cross-type merge, a field present in exactly one frame
passes through unchanged; a field present in two or more frames is, for
cross-reducer in sum/max/min/mean, stacked across those relations on a new
leading axis and reduced over that axis (for two same-shaped relations, 'sum'
yields their elementwise sum); 'stack' keeps a relation axis of size 2 at
position 1 but additionally unsqueezes each contribution, so each slice along
the relation axis is the contribution wrapped in an extra singleton axis. -/
theorem claim_C7_amended :
    (∀ (frames : List FrameT) (reducer k : String) (t : Tensor),
        reducer ∈ validCrossReducers → tensorsFor frames k = [t] →
        ∃ fr, merge_frames frames reducer = .ok fr ∧ fr.lookup k = some t) ∧
    (∀ (frames : List FrameT) (reducer k : String),
        reducer ∈ (["sum", "max", "min", "mean"] : List String) →
        2 ≤ (tensorsFor frames k).length →
        ∃ fr, merge_frames frames reducer = .ok fr ∧
          fr.lookup k = some (crossRedFn reducer (stack0 (tensorsFor frames k)))) ∧
    (∀ (frames : List FrameT) (k : String) (t1 t2 : Tensor),
        tensorsFor frames k = [t1, t2] →
        ∃ fr, merge_frames frames "sum" = .ok fr ∧
          fr.lookup k = some (tzip (· + ·) t1 t2)) ∧
    (∀ (frames : List FrameT) (k : String) (t1 t2 : Tensor),
        tensorsFor frames k = [t1, t2] →
        (∃ fr, merge_frames frames "stack" = .ok fr ∧
          fr.lookup k = some (stack1 [unsqueeze1 t1, unsqueeze1 t2])) ∧
        (∀ n, n < (tRows t1).length → n < (tRows t2).length →
          (tRows (stack1 [unsqueeze1 t1, unsqueeze1 t2])).getD n (.scalar 0)
            = .vec [.vec [(tRows t1).getD n (.scalar 0)],
                .vec [(tRows t2).getD n (.scalar 0)]])) := by
  have p1 : ∀ (frames : List FrameT) (reducer k : String) (t : Tensor),
      reducer ∈ validCrossReducers → tensorsFor frames k = [t] →
      ∃ fr, merge_frames frames reducer = .ok fr ∧ fr.lookup k = some t := by
    intro frames red k t hred ht
    by_cases h1 : frames.length = 1
    · obtain ⟨f0, rfl⟩ := List.length_eq_one.mp h1
      refine ⟨f0, by simp [merge_frames], ?_⟩
      cases hf : f0.lookup k with
      | none => rw [tensorsFor] at ht; simp [List.filterMap_cons, hf] at ht
      | some t2 =>
        rw [tensorsFor] at ht
        simp [List.filterMap_cons, hf] at ht
        rw [ht]
    · obtain ⟨fr, hm, hl⟩ := merge_frames_lookup frames red k hred (by rw [ht]; simp) h1
      refine ⟨fr, hm, ?_⟩
      rw [hl, ht]
      simp
  have p2 : ∀ (frames : List FrameT) (reducer k : String),
      reducer ∈ (["sum", "max", "min", "mean"] : List String) →
      2 ≤ (tensorsFor frames k).length →
      ∃ fr, merge_frames frames reducer = .ok fr ∧
        fr.lookup k = some (crossRedFn reducer (stack0 (tensorsFor frames k))) := by
    intro frames red k hred4 h2len
    have hred4b : red = "sum" ∨ red = "max" ∨ red = "min" ∨ red = "mean" := by
      simpa using hred4
    have hred : red ∈ validCrossReducers := by
      rcases hred4b with rfl | rfl | rfl | rfl <;> simp [validCrossReducers]
    have hne : tensorsFor frames k ≠ [] := by
      intro h
      rw [h] at h2len
      simp at h2len
    have h1 : frames.length ≠ 1 := by
      have hle : (tensorsFor frames k).length ≤ frames.length :=
        List.length_filterMap_le _ _
      omega
    obtain ⟨fr, hm, hl⟩ := merge_frames_lookup frames red k hred hne h1
    refine ⟨fr, hm, ?_⟩
    rw [hl, if_pos (by omega)]
    have hstack : ¬ red = "stack" := by
      rcases hred4b with rfl | rfl | rfl | rfl <;> simp
    rw [crossMerger, if_neg hstack]
  refine ⟨p1, p2, ?_, ?_⟩
  · intro frames k t1 t2 ht
    obtain ⟨fr, hm, hl⟩ := p2 frames "sum" k (by simp) (by rw [ht]; simp)
    refine ⟨fr, hm, ?_⟩
    rw [hl, ht]
    rfl
  · intro frames k t1 t2 ht
    constructor
    · have hne : tensorsFor frames k ≠ [] := by rw [ht]; simp
      have h1 : frames.length ≠ 1 := by
        have hle : (tensorsFor frames k).length ≤ frames.length :=
          List.length_filterMap_le _ _
        rw [ht] at hle
        simp at hle
        omega
      obtain ⟨fr, hm, hl⟩ := merge_frames_lookup frames "stack" k
        (by simp [validCrossReducers]) hne h1
      refine ⟨fr, hm, ?_⟩
      rw [hl, ht, if_pos (by simp)]
      rfl
    · intro n h1 h2
      exact stack1_unsqueeze_rows t1 t2 n h1 h2

/-- C7 witness: merging two concrete single-field frames with `'sum'` yields
the elementwise sum of the two contributions. -/
theorem claim_C7_witness :
    ∃ fr, merge_frames [[("x", Tensor.scalar 1)], [("x", Tensor.scalar 2)]] "sum" = .ok fr ∧
      fr.lookup "x" = some (tzip (· + ·) (Tensor.scalar 1) (Tensor.scalar 2)) :=
  claim_C7_amended.2.2.1 [[("x", Tensor.scalar 1)], [("x", Tensor.scalar 2)]] "x"
    (Tensor.scalar 1) (Tensor.scalar 2) rfl


/-- The shape of a tensor (following first slices). -/
def tShape : Tensor → List Nat
  | .scalar _ => []
  | .vec [] => [0]
  | .vec (t :: ts) => (ts.length + 1) :: tShape t

/-- The scheme of a feature column: the per-row shape (`Scheme.infer_scheme`
of the frame layer). -/
def colScheme : Tensor → List Nat
  | .vec ts => tShape (ts.headD (.scalar 0))
  | .scalar _ => []

/-- The `schemes` dict of a frame: field name to per-row scheme. -/
def schemesOf (fr : FrameT) : List (String × List Nat) :=
  fr.map (fun kv => (kv.1, colScheme kv.2))

/-- One step of the inner loop of `combine_frames`: a surviving scheme entry
the frame also has must match (else `DGLError`), an entry the frame lacks is
dropped. -/
def checkStep (frame : FrameT) (acc : Except DGLError (List (String × List Nat)))
    (p : String × List Nat) : Except DGLError (List (String × List Nat)) :=
  match acc with
  | .error e => .error e
  | .ok l =>
    match frame.lookup p.1 with
    | some c => if colScheme c ≠ p.2 then .error .schemeConflict else .ok (l ++ [p])
    | none => .ok l

/-- The inner loop of `combine_frames` for one constituent frame: walk the
surviving schemes in order. -/
def checkFrame (frame : FrameT) (sch : List (String × List Nat)) :
    Except DGLError (List (String × List Nat)) :=
  sch.foldl (checkStep frame) (.ok [])

/-- One step of the outer loop of `combine_frames` over constituent ids. -/
def combineStep (frames : List FrameT) (acc : Except DGLError (List (String × List Nat)))
    (fid : Nat) : Except DGLError (List (String × List Nat)) :=
  match acc with
  | .error e => .error e
  | .ok sch => checkFrame (frames.getD fid []) sch

/-- The scheme-intersection loop of `combine_frames` over all constituent ids
(the first id's frame seeds the scheme dict and is itself re-checked, as in
the source). -/
def combineFold (frames : List FrameT) (ids : List Nat) :
    Except DGLError (List (String × List Nat)) :=
  ids.foldl (combineStep frames) (.ok (schemesOf (frames.getD (ids.getD 0 0) [])))

/-- `F.cat(.., dim=0)` of field `k` over the constituent frames, in id order. -/
def concatCols (frames : List FrameT) (ids : List Nat) (k : String) : Tensor :=
  .vec (ids.foldl (fun acc i => acc ++ tRows (((frames.getD i []).lookup k).getD (.vec []))) [])

/-- `combine_frames` (`heterograph.py`): intersect the schemes of the
constituent frames (error on a scheme conflict), returning `none` when no
common column remains (`return None` in the source) and otherwise the frame of
concatenated common columns. -/
def combine_frames (frames : List FrameT) (ids : List Nat) : Except DGLError (Option FrameT) :=
  match combineFold frames ids with
  | .error e => .error e
  | .ok sch =>
    if sch.isEmpty then .ok none
    else .ok (some (sch.map (fun p => (p.1, concatCols frames ids p.1))))

/-- `combine_names` (`heterograph.py`): the selected names, sorted and joined
with `'+'`. -/
def combine_names (names : List String) (ids : List Nat) : String :=
  String.intercalate "+" (List.mergeSort (ids.map (fun i => names.getD i "")) (fun a b => a ≤ b))

/-- The inner fold ignores everything after an error. -/
theorem checkFrame_go_err (frame : FrameT) (sch : List (String × List Nat)) (e : DGLError) :
    sch.foldl (checkStep frame) (.error e) = .error e := by
  induction sch with
  | nil => rfl
  | cons p rest ih => exact ih

/-- `checkFrame` on a frame agreeing with every surviving scheme keeps exactly
the fields the frame has. -/
theorem checkFrame_ok (frame : FrameT) (sch : List (String × List Nat))
    (hag : ∀ p ∈ sch, ∀ c, frame.lookup p.1 = some c → colScheme c = p.2) :
    checkFrame frame sch = .ok (sch.filter (fun p => (frame.lookup p.1).isSome)) := by
  unfold checkFrame
  suffices hgen : ∀ (sch2 l0 : List (String × List Nat)),
      (∀ p ∈ sch2, ∀ c, frame.lookup p.1 = some c → colScheme c = p.2) →
      sch2.foldl (checkStep frame) (.ok l0)
        = .ok (l0 ++ sch2.filter (fun p => (frame.lookup p.1).isSome)) by
    simpa using hgen sch [] hag
  intro sch2
  induction sch2 with
  | nil =>
    intro l0 _
    simp
  | cons p rest ih =>
    intro l0 hag2
    have htail : ∀ q ∈ rest, ∀ c, frame.lookup q.1 = some c → colScheme c = q.2 :=
      fun q hq => hag2 q (List.mem_cons_of_mem p hq)
    rw [List.foldl_cons]
    cases hl : frame.lookup p.1 with
    | none =>
      simp only [checkStep, hl]
      rw [ih l0 htail]
      simp [List.filter_cons, hl]
    | some c =>
      have heq : colScheme c = p.2 := hag2 p (List.mem_cons_self p rest) c hl
      simp only [checkStep, hl, heq, ne_eq, not_true_eq_false, ite_false]
      rw [ih (l0 ++ [p]) htail]
      simp [List.filter_cons, hl]


/-- `checkFrame` fails (with the scheme-conflict error) as soon as some
surviving scheme entry mismatches the frame's column. -/
theorem checkFrame_error (frame : FrameT) (sch : List (String × List Nat))
    (hbad : ∃ p ∈ sch, ∃ c, frame.lookup p.1 = some c ∧ colScheme c ≠ p.2) :
    checkFrame frame sch = .error .schemeConflict := by
  unfold checkFrame
  suffices hgen : ∀ (sch2 l0 : List (String × List Nat)),
      (∃ p ∈ sch2, ∃ c, frame.lookup p.1 = some c ∧ colScheme c ≠ p.2) →
      sch2.foldl (checkStep frame) (.ok l0) = .error .schemeConflict by
    exact hgen sch [] hbad
  intro sch2
  induction sch2 with
  | nil =>
    intro l0 h
    simp at h
  | cons p rest ih =>
    intro l0 hbad2
    rw [List.foldl_cons]
    cases hl : frame.lookup p.1 with
    | none =>
      simp only [checkStep, hl]
      apply ih
      obtain ⟨q, hq, c, hlc, hcs⟩ := hbad2
      rcases List.mem_cons.mp hq with rfl | hq2
      · rw [hl] at hlc
        exact absurd hlc (by simp)
      · exact ⟨q, hq2, c, hlc, hcs⟩
    | some c =>
      by_cases hcs : colScheme c = p.2
      · simp only [checkStep, hl, hcs, ne_eq, not_true_eq_false, ite_false]
        apply ih
        obtain ⟨q, hq, c2, hlc, hcs2⟩ := hbad2
        rcases List.mem_cons.mp hq with rfl | hq2
        · rw [hl] at hlc
          have : c2 = c := by injection hlc.symm
          rw [this] at hcs2
          exact absurd hcs hcs2
        · exact ⟨q, hq2, c2, hlc, hcs2⟩
      · simp only [checkStep, hl, if_pos hcs]
        exact checkFrame_go_err frame rest .schemeConflict

/-- A successful `checkFrame` keeps every surviving entry whose field the
frame has. -/
theorem checkFrame_mem (frame : FrameT) (sch : List (String × List Nat))
    (sch2 : List (String × List Nat)) (h : checkFrame frame sch = .ok sch2) :
    ∀ p ∈ sch, (frame.lookup p.1).isSome → p ∈ sch2 := by
  unfold checkFrame at h
  suffices hgen : ∀ (schX l0 : List (String × List Nat)),
      schX.foldl (checkStep frame) (.ok l0) = .ok sch2 →
      (∀ x ∈ l0, x ∈ sch2) ∧ ∀ p ∈ schX, (frame.lookup p.1).isSome → p ∈ sch2 by
    exact (hgen sch [] h).2
  intro schX
  induction schX with
  | nil =>
    intro l0 h0
    constructor
    · intro x hx
      have : l0 = sch2 := by
        injection h0
      rw [← this]
      exact hx
    · intro p hp
      simp at hp
  | cons p rest ih =>
    intro l0 h0
    rw [List.foldl_cons] at h0
    cases hl : frame.lookup p.1 with
    | none =>
      simp only [checkStep, hl] at h0
      obtain ⟨hl0, hrest⟩ := ih l0 h0
      refine ⟨hl0, ?_⟩
      intro q hq hqs
      rcases List.mem_cons.mp hq with rfl | hq2
      · rw [hl] at hqs
        simp at hqs
      · exact hrest q hq2 hqs
    | some c =>
      by_cases hcs : colScheme c = p.2
      · simp only [checkStep, hl, hcs, ne_eq, not_true_eq_false, ite_false] at h0
        obtain ⟨hl0, hrest⟩ := ih (l0 ++ [p]) h0
        refine ⟨fun x hx => hl0 x (by simp [hx]), ?_⟩
        intro q hq hqs
        rcases List.mem_cons.mp hq with rfl | hq2
        · exact hl0 q (by simp)
        · exact hrest q hq2 hqs
      · simp only [checkStep, hl, if_pos hcs] at h0
        rw [checkFrame_go_err] at h0
        exact absurd h0 (by simp)

/-- The outer fold of `combine_frames` ignores everything after an error. -/
theorem combineFold_go_err (frames : List FrameT) (ids : List Nat) (e : DGLError) :
    ids.foldl (combineStep frames) (.error e) = .error e := by
  induction ids with
  | nil => rfl
  | cons i rest ih => exact ih


/-- `checkFrame` can only fail with the scheme-conflict error. -/
theorem checkFrame_err_val (frame : FrameT) (sch : List (String × List Nat)) (e : DGLError)
    (h : checkFrame frame sch = .error e) : e = .schemeConflict := by
  unfold checkFrame at h
  suffices hgen : ∀ (schX l0 : List (String × List Nat)),
      schX.foldl (checkStep frame) (.ok l0) = .error e → e = .schemeConflict by
    exact hgen sch [] h
  intro schX
  induction schX with
  | nil =>
    intro l0 h0
    exact absurd h0 (by simp)
  | cons p rest ih =>
    intro l0 h0
    rw [List.foldl_cons] at h0
    cases hl : frame.lookup p.1 with
    | none =>
      simp only [checkStep, hl] at h0
      exact ih l0 h0
    | some c =>
      by_cases hcs : colScheme c = p.2
      · simp only [checkStep, hl, hcs, ne_eq, not_true_eq_false, ite_false] at h0
        exact ih (l0 ++ [p]) h0
      · simp only [checkStep, hl, if_pos hcs] at h0
        rw [checkFrame_go_err] at h0
        injection h0 with h1
        exact h1.symm

/-- The outer fold over constituents agreeing with every surviving scheme
keeps exactly the schemes whose field every constituent has. -/
theorem combineFold_ok_go (frames : List FrameT) :
    ∀ (idsR : List Nat) (sch : List (String × List Nat)),
      (∀ p ∈ sch, ∀ j ∈ idsR, ∀ c, (frames.getD j []).lookup p.1 = some c → colScheme c = p.2) →
      idsR.foldl (combineStep frames) (.ok sch)
        = .ok (sch.filter (fun p => idsR.all (fun j => ((frames.getD j []).lookup p.1).isSome))) := by
  intro idsR
  induction idsR with
  | nil =>
    intro sch _
    simp
  | cons j0 rest ih =>
    intro sch hag
    rw [List.foldl_cons]
    have hj0 : ∀ p ∈ sch, ∀ c, (frames.getD j0 []).lookup p.1 = some c → colScheme c = p.2 :=
      fun p hp c hc => hag p hp j0 (List.mem_cons_self _ _) c hc
    simp only [combineStep]
    rw [checkFrame_ok _ _ hj0]
    rw [ih _ (fun p hp j hj c hc =>
      hag p (List.mem_of_mem_filter hp) j (List.mem_cons_of_mem _ hj) c hc)]
    have hff : (sch.filter (fun p => ((frames.getD j0 []).lookup p.1).isSome)).filter
          (fun p => rest.all (fun j => ((frames.getD j []).lookup p.1).isSome))
        = sch.filter (fun p => (j0 :: rest).all
          (fun j => ((frames.getD j []).lookup p.1).isSome)) := by
      rw [List.filter_filter]
      apply List.filter_congr
      intro p _
      simp [List.all_cons, Bool.and_comm]
    rw [hff]

/-- The outer fold fails with the scheme-conflict error whenever a field
common to every remaining constituent has a mismatched scheme somewhere. -/
theorem combineFold_error_go (frames : List FrameT) :
    ∀ (idsR : List Nat) (sch : List (String × List Nat)) (k : String) (s0 : List Nat),
      (k, s0) ∈ sch →
      (∀ j ∈ idsR, (((frames.getD j []).lookup k).isSome)) →
      (∃ j ∈ idsR, ∃ c, (frames.getD j []).lookup k = some c ∧ colScheme c ≠ s0) →
      idsR.foldl (combineStep frames) (.ok sch) = .error .schemeConflict := by
  intro idsR
  induction idsR with
  | nil =>
    intro sch k s0 _ _ hbad
    simp at hbad
  | cons j0 rest ih =>
    intro sch k s0 hin hcommon hbad
    rw [List.foldl_cons]
    simp only [combineStep]
    by_cases hb0 : ∃ c, (frames.getD j0 []).lookup k = some c ∧ colScheme c ≠ s0
    · obtain ⟨c, hlc, hcs⟩ := hb0
      rw [checkFrame_error _ _ ⟨(k, s0), hin, c, hlc, hcs⟩]
      exact combineFold_go_err frames rest .schemeConflict
    · cases hcf : checkFrame (frames.getD j0 []) sch with
      | error e =>
        rw [checkFrame_err_val _ _ _ hcf]
        exact combineFold_go_err frames rest .schemeConflict
      | ok sch2 =>
        have hin2 : (k, s0) ∈ sch2 :=
          checkFrame_mem _ _ _ hcf (k, s0) hin (hcommon j0 (List.mem_cons_self _ _))
        apply ih sch2 k s0 hin2 (fun j hj => hcommon j (List.mem_cons_of_mem _ hj))
        obtain ⟨j, hj, c, hlc, hcs⟩ := hbad
        rcases List.mem_cons.mp hj with rfl | hj2
        · exact absurd ⟨c, hlc, hcs⟩ hb0
        · exact ⟨j, hj2, c, hlc, hcs⟩


/-- A successful lookup exhibits its own binding. -/
theorem lookup_mem_pair {α : Type} (l : List (String × α)) (k : String) (v : α)
    (h : l.lookup k = some v) : (k, v) ∈ l := by
  induction l with
  | nil => simp [List.lookup] at h
  | cons kv m ih =>
    cases hb : k == kv.1 with
    | true =>
      simp only [List.lookup, hb] at h
      have hk : k = kv.1 := by simpa using hb
      injection h with hv
      refine List.mem_cons.mpr (Or.inl ?_)
      rw [hk, ← hv]
    | false =>
      simp only [List.lookup, hb] at h
      exact List.mem_cons_of_mem kv (ih h)

/-- Lookup in an association list tabulated over the keys of `sch`. -/
theorem lookup_tabulated_pairs {α β : Type} (sch : List (String × α)) (f : String → β)
    (k : String) (hk : k ∈ sch.map Prod.fst) :
    (sch.map (fun p => (p.1, f p.1))).lookup k = some (f k) := by
  induction sch with
  | nil => simp at hk
  | cons p rest ih =>
    by_cases h : k = p.1
    · subst h
      simp [List.lookup]
    · have hb : (k == p.1) = false := by simp [h]
      simp only [List.map_cons, List.lookup, hb]
      rw [List.map_cons] at hk
      rcases List.mem_cons.mp hk with h2 | h2
      · exact absurd h2 h
      · exact ih h2

/-- Absent keys stay absent in a tabulated association list. -/
theorem lookup_tabulated_pairs_none {α β : Type} (sch : List (String × α)) (f : String → β)
    (k : String) (hk : k ∉ sch.map Prod.fst) :
    (sch.map (fun p => (p.1, f p.1))).lookup k = none := by
  induction sch with
  | nil => rfl
  | cons p rest ih =>
    have h : ¬ k = p.1 := fun h => hk (by simp [h])
    have hb : (k == p.1) = false := by simp [h]
    simp only [List.map_cons, List.lookup, hb]
    exact ih (fun h2 => hk (by simp at h2 ⊢; exact Or.inr h2))

/-- All constituent frames agree with the first one's schemes on every field
the first frame has. -/
def framesAgree (frames : List FrameT) (ids : List Nat) : Prop :=
  ∀ p ∈ schemesOf (frames.getD (ids.getD 0 0) []), ∀ j ∈ ids, ∀ c,
    (frames.getD j []).lookup p.1 = some c → colScheme c = p.2

/-- Under scheme agreement, `combine_frames` succeeds; a field common to every
constituent maps to the concatenated column, a field missing somewhere is
dropped. -/
theorem combine_frames_ok (frames : List FrameT) (ids : List Nat)
    (hag : framesAgree frames ids) :
    ∃ fr : Option FrameT, combine_frames frames ids = .ok fr ∧
      (∀ k, (((frames.getD (ids.getD 0 0) []).lookup k).isSome) →
        (ids.all (fun j => ((frames.getD j []).lookup k).isSome)) = true →
        (fr.getD []).lookup k = some (concatCols frames ids k)) ∧
      (∀ k, (ids.all (fun j => ((frames.getD j []).lookup k).isSome)) = false →
        (fr.getD []).lookup k = none) := by
  have hfold : combineFold frames ids
      = .ok ((schemesOf (frames.getD (ids.getD 0 0) [])).filter
          (fun p => ids.all (fun j => ((frames.getD j []).lookup p.1).isSome))) := by
    unfold combineFold
    exact combineFold_ok_go frames ids _ hag
  set sch := (schemesOf (frames.getD (ids.getD 0 0) [])).filter
    (fun p => ids.all (fun j => ((frames.getD j []).lookup p.1).isSome)) with hsch
  have hres : combine_frames frames ids
      = (if sch.isEmpty then .ok none
         else .ok (some (sch.map (fun p => (p.1, concatCols frames ids p.1))))) := by
    unfold combine_frames
    rw [hfold]
  have hmem_fst : ∀ k, ((frames.getD (ids.getD 0 0) []).lookup k).isSome →
      (ids.all (fun j => ((frames.getD j []).lookup k).isSome)) = true → k ∈ sch.map Prod.fst := by
    intro k hk0 hall
    obtain ⟨c0, hc0⟩ := Option.isSome_iff_exists.mp hk0
    have hmem0 : (k, colScheme c0) ∈ schemesOf (frames.getD (ids.getD 0 0) []) :=
      List.mem_map.mpr ⟨(k, c0), lookup_mem_pair _ _ _ hc0, rfl⟩
    exact List.mem_map.mpr ⟨(k, colScheme c0),
      List.mem_filter.mpr ⟨hmem0, by simpa using hall⟩, rfl⟩
  have hnot_fst : ∀ k, (ids.all (fun j => ((frames.getD j []).lookup k).isSome)) = false →
      k ∉ sch.map Prod.fst := by
    intro k hall hk
    obtain ⟨p, hp, hpk⟩ := List.mem_map.mp hk
    have := (List.mem_filter.mp hp).2
    rw [hpk] at this
    rw [hall] at this
    exact absurd this (by simp)
  by_cases hemp : sch.isEmpty
  · rw [hres, if_pos hemp]
    refine ⟨none, rfl, ?_, ?_⟩
    · intro k hk0 hall
      have := hmem_fst k hk0 hall
      rw [List.isEmpty_iff.mp hemp] at this
      simp at this
    · intro k _
      rfl
  · rw [hres, if_neg hemp]
    refine ⟨some (sch.map (fun p => (p.1, concatCols frames ids p.1))), rfl, ?_, ?_⟩
    · intro k hk0 hall
      exact lookup_tabulated_pairs sch (concatCols frames ids) k (hmem_fst k hk0 hall)
    · intro k hall
      exact lookup_tabulated_pairs_none sch (concatCols frames ids) k (hnot_fst k hall)

/-- `combine_frames` fails with the scheme-conflict error whenever a field
common to every constituent has mismatched schemes across constituents. -/
theorem combine_frames_error (frames : List FrameT) (ids : List Nat) (k : String)
    (hcommon : ∀ j ∈ ids, (((frames.getD j []).lookup k).isSome))
    (hbad : ∃ j ∈ ids, ∃ c c0, (frames.getD j []).lookup k = some c ∧
        (frames.getD (ids.getD 0 0) []).lookup k = some c0 ∧ colScheme c ≠ colScheme c0) :
    combine_frames frames ids = .error .schemeConflict := by
  obtain ⟨j, hj, c, c0, hlc, hlc0, hcs⟩ := hbad
  have hmem0 : (k, colScheme c0) ∈ schemesOf (frames.getD (ids.getD 0 0) []) :=
    List.mem_map.mpr ⟨(k, c0), lookup_mem_pair _ _ _ hlc0, rfl⟩
  have hfold : combineFold frames ids = .error .schemeConflict := by
    unfold combineFold
    exact combineFold_error_go frames ids _ k (colScheme c0) hmem0 hcommon ⟨j, hj, c, hlc, hcs⟩
  unfold combine_frames
  rw [hfold]


/-- The full heterograph store as far as relation slicing observes it:
metagraph data, per-type entity counts, and one frame per node/edge type. -/
structure HGraph where
  meta : HGMeta
  numNode : List Nat
  numEdge : List Nat
  node_frames : List FrameT
  edge_frames : List FrameT

/-- One component of a relation-slice key: a type name or the full slice
(`:` wildcard, `SLICE_FULL`). -/
inductive SlicePart where
  | full
  | name (s : String)
deriving DecidableEq

/-- Whether a key component matches a type name. -/
def partMatches : SlicePart → String → Bool
  | .full, _ => true
  | .name s, t => s = t

/-- `DGLHeteroGraph._find_etypes`: all canonical edge types matching the
slice key. -/
def _find_etypes (g : HGraph) (key : SlicePart × SlicePart × SlicePart) : List Nat :=
  (List.range g.meta.etypes.length).filter (fun i =>
    let c := (make_canonical_etypes g.meta).getD i ("", "", "")
    partMatches key.1 c.1 && partMatches key.2.1 c.2.1 && partMatches key.2.2 c.2.2)

/-- Insert into a sorted list of ids. -/
def insortNat (x : Nat) : List Nat → List Nat
  | [] => [x]
  | y :: ys => if x ≤ y then x :: y :: ys else y :: insortNat x ys

/-- Ascending insertion sort of ids. -/
def sortNats (l : List Nat) : List Nat := l.foldr insortNat []

/-- Modelled from the spec: the sorted induced type-id set
(`flat.induced_srctype_set` etc.; `flatten_relations` is native code outside
the sources). -/
def sortedDedup (l : List Nat) : List Nat :=
  (sortNats l).dedup

/-- Modelled from the spec: the per-element originating-type column
(`induced_srctype` / `induced_etype`) of a flattened view — the merged
elements are the constituent types' elements concatenated in id order. -/
def inducedTypeCol (counts : List Nat) (tids : List Nat) : Tensor :=
  .vec (tids.foldl (fun acc tid =>
    acc ++ List.replicate (counts.getD tid 0) (Tensor.scalar tid)) [])

/-- Modelled from the spec: the per-element original-local-id column
(`induced_srcid` / `induced_eid`) of a flattened view. -/
def inducedIdCol (counts : List Nat) (tids : List Nat) : Tensor :=
  .vec (tids.foldl (fun acc tid =>
    acc ++ (List.range (counts.getD tid 0)).map (fun j => Tensor.scalar j)) [])

/-- Attach the `_TYPE` and `_ID` traceability columns
(`new_hg.nodes[..].data[NTYPE] = ...` etc.). -/
def addTypeTags (fr : FrameT) (counts : List Nat) (tids : List Nat) : FrameT :=
  assocSetOrAdd (assocSetOrAdd fr "_TYPE" (inducedTypeCol counts tids)) "_ID"
    (inducedIdCol counts tids)

/-- The observables of a relation slice: its node/edge type names and frames. -/
structure RelSliceView where
  ntypes : List String
  etypes : List String
  node_frames : List FrameT
  edge_frames : List FrameT

/-- The sorted induced source-type-id set of a flattened slice. -/
def srcTypeSet (g : HGraph) (ets : List Nat) : List Nat :=
  sortedDedup (ets.map (fun i => (g.meta.metaEdges.getD i (0, 0)).1))

/-- The sorted induced destination-type-id set of a flattened slice. -/
def dstTypeSet (g : HGraph) (ets : List Nat) : List Nat :=
  sortedDedup (ets.map (fun i => (g.meta.metaEdges.getD i (0, 0)).2))

/-- The single-match branch of `__getitem__`: the relation view's node and
edge frames are the parent's frame objects, selected through the inverse type
maps. -/
def getitemSingle (g : HGraph) (i : Nat) : Except DGLError RelSliceView :=
  let c := (make_canonical_etypes g.meta).getD i ("", "", "")
  let stid := (invmapLookup g.meta.ntypes c.1).getD 0
  let dtid := (invmapLookup g.meta.ntypes c.2.2).getD 0
  let etid := (etypesInvmapLookup g.meta c).getD 0
  if stid = dtid then
    .ok ⟨[c.1], [c.2.1], [g.node_frames.getD stid []], [g.edge_frames.getD etid []]⟩
  else
    .ok ⟨[c.1, c.2.2], [c.2.1],
      [g.node_frames.getD stid [], g.node_frames.getD dtid []],
      [g.edge_frames.getD etid []]⟩

/-- The multi-match branch of `__getitem__`: combine the constituent frames
(source side first, then destination side when distinct, then edges — errors
propagate in that order, as in the source) and attach the `_TYPE`/`_ID` tag
columns; type names are `'+'`-joined sorted constituent names. -/
def getitemFlatten (g : HGraph) (ets : List Nat) : Except DGLError RelSliceView :=
  let stids := srcTypeSet g ets
  let dtids := dstTypeSet g ets
  if stids = dtids then
    match combine_frames g.node_frames stids with
    | .error e => .error e
    | .ok nf0 =>
      match combine_frames g.edge_frames ets with
      | .error e => .error e
      | .ok ef0 =>
        .ok ⟨[combine_names g.meta.ntypes stids], [combine_names g.meta.etypes ets],
          [addTypeTags (nf0.getD []) g.numNode stids],
          [addTypeTags (ef0.getD []) g.numEdge ets]⟩
  else
    match combine_frames g.node_frames stids with
    | .error e => .error e
    | .ok nfs =>
      match combine_frames g.node_frames dtids with
      | .error e => .error e
      | .ok nfd =>
        match combine_frames g.edge_frames ets with
        | .error e => .error e
        | .ok ef0 =>
          .ok ⟨[combine_names g.meta.ntypes stids, combine_names g.meta.ntypes dtids],
            [combine_names g.meta.etypes ets],
            [addTypeTags (nfs.getD []) g.numNode stids,
             addTypeTags (nfd.getD []) g.numNode dtids],
            [addTypeTags (ef0.getD []) g.numEdge ets]⟩

/-- `DGLHeteroGraph.__getitem__`: dispatch on the number of matching canonical
edge types.  The structural flattening data is modelled from the spec (native
`flatten_relations`); an empty match set is outside the claims' scope. -/
def getitem (g : HGraph) (key : SlicePart × SlicePart × SlicePart) :
    Except DGLError RelSliceView :=
  match _find_etypes g key with
  | [] => .error .emptySlice
  | [i] => getitemSingle g i
  | ets => getitemFlatten g ets

/-- The tag columns shadow nothing else: lookups in a tagged frame. -/
theorem addTypeTags_lookups (fr : FrameT) (counts tids : List Nat) :
    (addTypeTags fr counts tids).lookup "_TYPE" = some (inducedTypeCol counts tids) ∧
    (addTypeTags fr counts tids).lookup "_ID" = some (inducedIdCol counts tids) ∧
    ∀ k, ¬ k = "_TYPE" → ¬ k = "_ID" → (addTypeTags fr counts tids).lookup k = fr.lookup k := by
  unfold addTypeTags
  refine ⟨?_, lookup_assocSetOrAdd_self _ _ _, ?_⟩
  · rw [lookup_assocSetOrAdd_ne _ _ _ _ (by decide), lookup_assocSetOrAdd_self]
  · intro k h1 h2
    rw [lookup_assocSetOrAdd_ne _ _ _ _ h2, lookup_assocSetOrAdd_ne _ _ _ _ h1]


/-- A value found by the overwrite-fold comes from a matching element. -/
theorem foldl_find_some_mem {α β : Type} (l : List α) (p : α → Prop) [DecidablePred p]
    (f : α → β) (acc : Option β) (b : β)
    (h : l.foldl (fun o x => if p x then some (f x) else o) acc = some b) :
    (∃ x ∈ l, b = f x) ∨ acc = some b := by
  induction l generalizing acc with
  | nil => exact Or.inr h
  | cons x rest ih =>
    rw [List.foldl_cons] at h
    rcases ih _ h with ⟨y, hy, hb⟩ | hacc
    · exact Or.inl ⟨y, List.mem_cons_of_mem x hy, hb⟩
    · by_cases hx : p x
      · rw [if_pos hx] at hacc
        injection hacc with hb
        exact Or.inl ⟨x, List.mem_cons_self x rest, hb.symm⟩
      · rw [if_neg hx] at hacc
        exact Or.inr hacc

/-- Indexed cells below the length are members. -/
theorem getD_mem {α : Type} (l : List α) (i : Nat) (d : α) (h : i < l.length) :
    l.getD i d ∈ l := by
  rw [getD_eq_getElem l d i h]
  exact List.getElem_mem h

/-- The frame selected through the node-type inverse map is one of the
parent's frames. -/
theorem frame_getD_invmap_mem (l : List String) (frames : List FrameT) (s : String)
    (hlen : frames.length = l.length) (h0 : 0 < l.length) :
    frames.getD ((invmapLookup l s).getD 0) [] ∈ frames := by
  cases hl : invmapLookup l s with
  | none =>
    exact getD_mem frames 0 [] (by omega)
  | some j =>
    unfold invmapLookup at hl
    rcases foldl_find_some_mem _ _ _ _ _ hl with ⟨x, hx, hb⟩ | habs
    · have : x < l.length := List.mem_range.mp hx
      exact getD_mem frames j [] (by omega)
    · exact absurd habs (by simp)

/-- The frame selected through the edge-type inverse map is one of the
parent's frames. -/
theorem frame_getD_etinvmap_mem (g : HGMeta) (frames : List FrameT) (t : Triple)
    (hlen : frames.length = g.etypes.length) (h0 : 0 < g.etypes.length) :
    frames.getD ((etypesInvmapLookup g t).getD 0) [] ∈ frames := by
  cases hl : etypesInvmapLookup g t with
  | none =>
    exact getD_mem frames 0 [] (by omega)
  | some j =>
    unfold etypesInvmapLookup at hl
    rcases foldl_find_some_mem _ _ _ _ _ hl with ⟨x, hx, hb⟩ | habs
    · have hx2 : x < (make_canonical_etypes g).length := List.mem_range.mp hx
      have hcl : (make_canonical_etypes g).length = g.etypes.length := by
        simp [make_canonical_etypes]
      exact getD_mem frames j [] (by omega)
    · exact absurd habs (by simp)


/-- C8: a relation-slice key matching exactly one canonical edge type returns
the single-relation view whose node and edge frames are the parent's frame
objects (features shared); a key matching several returns a flattened view
whose type names are the `'+'`-joined sorted constituent names, whose frames
hold exactly the feature columns common to all merged constituents
(concatenated, hence not shared), failing with the scheme-conflict error when
a field common to all constituents has mismatched schemes, and whose nodes and
edges carry `_TYPE`/`_ID` columns recording each element's originating type id
and original local id. -/
theorem claim_C8 :
    (∀ (g : HGraph) (key : SlicePart × SlicePart × SlicePart) (i : Nat),
      _find_etypes g key = [i] →
      g.node_frames.length = g.meta.ntypes.length →
      g.edge_frames.length = g.meta.etypes.length →
      0 < g.meta.ntypes.length →
      ∃ view, getitem g key = .ok view ∧
        (∀ fr ∈ view.node_frames, fr ∈ g.node_frames) ∧
        (∀ fr ∈ view.edge_frames, fr ∈ g.edge_frames)) ∧
    (∀ (g : HGraph) (key : SlicePart × SlicePart × SlicePart) (i1 i2 : Nat) (rest : List Nat),
      _find_etypes g key = i1 :: i2 :: rest →
      framesAgree g.node_frames (srcTypeSet g (i1 :: i2 :: rest)) →
      framesAgree g.node_frames (dstTypeSet g (i1 :: i2 :: rest)) →
      framesAgree g.edge_frames (i1 :: i2 :: rest) →
      ∃ view, getitem g key = .ok view ∧
        view.etypes = [combine_names g.meta.etypes (i1 :: i2 :: rest)] ∧
        view.ntypes = (if srcTypeSet g (i1 :: i2 :: rest) = dstTypeSet g (i1 :: i2 :: rest)
          then [combine_names g.meta.ntypes (srcTypeSet g (i1 :: i2 :: rest))]
          else [combine_names g.meta.ntypes (srcTypeSet g (i1 :: i2 :: rest)),
                combine_names g.meta.ntypes (dstTypeSet g (i1 :: i2 :: rest))]) ∧
        (view.node_frames.getD 0 []).lookup "_TYPE"
          = some (inducedTypeCol g.numNode (srcTypeSet g (i1 :: i2 :: rest))) ∧
        (view.node_frames.getD 0 []).lookup "_ID"
          = some (inducedIdCol g.numNode (srcTypeSet g (i1 :: i2 :: rest))) ∧
        (∃ ef, view.edge_frames = [ef] ∧
          ef.lookup "_TYPE" = some (inducedTypeCol g.numEdge (i1 :: i2 :: rest)) ∧
          ef.lookup "_ID" = some (inducedIdCol g.numEdge (i1 :: i2 :: rest)) ∧
          (∀ k, ¬ k = "_TYPE" → ¬ k = "_ID" →
            ((((g.edge_frames.getD ((i1 :: i2 :: rest).getD 0 0) []).lookup k).isSome →
              ((i1 :: i2 :: rest).all
                (fun j => ((g.edge_frames.getD j []).lookup k).isSome)) = true →
              ef.lookup k = some (concatCols g.edge_frames (i1 :: i2 :: rest) k)) ∧
             (((i1 :: i2 :: rest).all
                (fun j => ((g.edge_frames.getD j []).lookup k).isSome)) = false →
              ef.lookup k = none))))) ∧
    (∀ (g : HGraph) (key : SlicePart × SlicePart × SlicePart) (i1 i2 : Nat)
        (rest : List Nat) (k : String),
      _find_etypes g key = i1 :: i2 :: rest →
      (∀ j ∈ srcTypeSet g (i1 :: i2 :: rest),
        ((g.node_frames.getD j []).lookup k).isSome) →
      (∃ j ∈ srcTypeSet g (i1 :: i2 :: rest), ∃ c c0,
        (g.node_frames.getD j []).lookup k = some c ∧
        (g.node_frames.getD ((srcTypeSet g (i1 :: i2 :: rest)).getD 0 0) []).lookup k
          = some c0 ∧
        colScheme c ≠ colScheme c0) →
      getitem g key = .error .schemeConflict) := by
  refine ⟨?_, ?_, ?_⟩
  · intro g key i hfind hn he hnt
    have het : 0 < g.meta.etypes.length := by
      have hi : i ∈ _find_etypes g key := by rw [hfind]; simp
      have : i ∈ List.range g.meta.etypes.length := List.mem_of_mem_filter hi
      have := List.mem_range.mp this
      omega
    have hget : getitem g key = getitemSingle g i := by
      unfold getitem
      rw [hfind]
    rw [hget]
    unfold getitemSingle
    dsimp only
    split
    · refine ⟨_, rfl, ?_, ?_⟩
      · intro fr hfr
        rcases List.mem_cons.mp hfr with rfl | hfr2
        · exact frame_getD_invmap_mem _ _ _ hn hnt
        · simp at hfr2
      · intro fr hfr
        rcases List.mem_cons.mp hfr with rfl | hfr2
        · exact frame_getD_etinvmap_mem _ _ _ he het
        · simp at hfr2
    · refine ⟨_, rfl, ?_, ?_⟩
      · intro fr hfr
        rcases List.mem_cons.mp hfr with rfl | hfr2
        · exact frame_getD_invmap_mem _ _ _ hn hnt
        · rcases List.mem_cons.mp hfr2 with rfl | hfr3
          · exact frame_getD_invmap_mem _ _ _ hn hnt
          · simp at hfr3
      · intro fr hfr
        rcases List.mem_cons.mp hfr with rfl | hfr2
        · exact frame_getD_etinvmap_mem _ _ _ he het
        · simp at hfr2
  · intro g key i1 i2 rest hfind hagS hagD hagE
    have hget : getitem g key = getitemFlatten g (i1 :: i2 :: rest) := by
      unfold getitem
      rw [hfind]
    obtain ⟨nfS, hnfS, _, _⟩ := combine_frames_ok g.node_frames
      (srcTypeSet g (i1 :: i2 :: rest)) hagS
    obtain ⟨nfD, hnfD, _, _⟩ := combine_frames_ok g.node_frames
      (dstTypeSet g (i1 :: i2 :: rest)) hagD
    obtain ⟨efO, hef, hefl, hefn⟩ := combine_frames_ok g.edge_frames (i1 :: i2 :: rest) hagE
    rw [hget]
    unfold getitemFlatten
    dsimp only
    by_cases hsd : srcTypeSet g (i1 :: i2 :: rest) = dstTypeSet g (i1 :: i2 :: rest)
    · rw [if_pos hsd, hnfS, hef]
      refine ⟨_, rfl, rfl, by rw [if_pos hsd], ?_, ?_, ?_⟩
      · exact (addTypeTags_lookups (nfS.getD []) g.numNode _).1
      · exact (addTypeTags_lookups (nfS.getD []) g.numNode _).2.1
      · refine ⟨_, rfl, (addTypeTags_lookups (efO.getD []) g.numEdge _).1,
          (addTypeTags_lookups (efO.getD []) g.numEdge _).2.1, ?_⟩
        intro k h1 h2
        rw [(addTypeTags_lookups (efO.getD []) g.numEdge _).2.2 k h1 h2]
        exact ⟨hefl k, hefn k⟩
    · rw [if_neg hsd, hnfS, hnfD, hef]
      refine ⟨_, rfl, rfl, by rw [if_neg hsd], ?_, ?_, ?_⟩
      · exact (addTypeTags_lookups (nfS.getD []) g.numNode _).1
      · exact (addTypeTags_lookups (nfS.getD []) g.numNode _).2.1
      · refine ⟨_, rfl, (addTypeTags_lookups (efO.getD []) g.numEdge _).1,
          (addTypeTags_lookups (efO.getD []) g.numEdge _).2.1, ?_⟩
        intro k h1 h2
        rw [(addTypeTags_lookups (efO.getD []) g.numEdge _).2.2 k h1 h2]
        exact ⟨hefl k, hefn k⟩
  · intro g key i1 i2 rest k hfind hcommon hbad
    have hget : getitem g key = getitemFlatten g (i1 :: i2 :: rest) := by
      unfold getitem
      rw [hfind]
    have hbadcomb := combine_frames_error g.node_frames
      (srcTypeSet g (i1 :: i2 :: rest)) k hcommon hbad
    rw [hget]
    unfold getitemFlatten
    dsimp only
    by_cases hsd : srcTypeSet g (i1 :: i2 :: rest) = dstTypeSet g (i1 :: i2 :: rest)
    · rw [if_pos hsd, hbadcomb]
    · rw [if_neg hsd, hbadcomb]


/-- C8 witness: a single-match slice on a one-relation graph shares the
parent's frames, and a two-match slice whose source node frames disagree on
field `"h"`'s scheme fails with the scheme-conflict error. -/
theorem claim_C8_witness :
    (∃ view, getitem ⟨⟨["a"], ["e"], [(0, 0)]⟩, [2], [1],
        [[("h", Tensor.vec [])]], [[("w", Tensor.vec [])]]⟩
        (.full, .name "e", .full) = .ok view ∧
      (∀ fr ∈ view.node_frames, fr ∈ [[("h", Tensor.vec [])]]) ∧
      (∀ fr ∈ view.edge_frames, fr ∈ [[("w", Tensor.vec [])]])) ∧
    getitem ⟨⟨["a", "b"], ["e", "f"], [(0, 0), (1, 1)]⟩, [1, 1], [1, 1],
        [[("h", Tensor.vec [Tensor.vec [Tensor.scalar 1]])],
         [("h", Tensor.vec [Tensor.vec [Tensor.scalar 1, Tensor.scalar 2]])]],
        [[], []]⟩ (.full, .full, .full) = .error .schemeConflict := by
  constructor
  · exact claim_C8.1 ⟨⟨["a"], ["e"], [(0, 0)]⟩, [2], [1],
      [[("h", Tensor.vec [])]], [[("w", Tensor.vec [])]]⟩
      (.full, .name "e", .full) 0 rfl rfl rfl (by decide)
  · apply claim_C8.2.2 ⟨⟨["a", "b"], ["e", "f"], [(0, 0), (1, 1)]⟩, [1, 1], [1, 1],
      [[("h", Tensor.vec [Tensor.vec [Tensor.scalar 1]])],
       [("h", Tensor.vec [Tensor.vec [Tensor.scalar 1, Tensor.scalar 2]])]],
      [[], []]⟩ (.full, .full, .full) 0 1 [] "h" rfl
    · decide
    · refine ⟨1, by decide, Tensor.vec [Tensor.vec [Tensor.scalar 1, Tensor.scalar 2]],
        Tensor.vec [Tensor.vec [Tensor.scalar 1]], rfl, rfl, by decide⟩

end DrugDGL
